import Mathlib

/-!
Verification development for the agent-sdk core: turn-loop controller,
token-budget/summarization subsystem, usage normalization, snapshot/approval
subsystem, and the provider-shape repair passes.  Each definition is a shallow
embedding of the corresponding TypeScript source; theorems settle the frozen
specification claims against those definitions.
-/

namespace AgentSdk

/-! ## Token estimator (src/utils/utilTokens.ts) -/

/-- Number mirror of one UTF-16 code unit count for a character: characters
above the Basic Multilingual Plane occupy two code units in a JS string. -/
def utf16Units (c : Char) : Nat := if c.val < 0x10000 then 1 else 2

/-- Count of ASCII code units of a character list (each ASCII char is one
UTF-16 unit); mirrors `text.length - nonAsciiCount` in `countApproxTokens`. -/
def asciiUnits (l : List Char) : Nat := (l.filter (fun c => c.val < 128)).length

/-- Count of non-ASCII UTF-16 code units; mirrors the
match count of the regex for non-ASCII code units in `countApproxTokens`
(both units of a surrogate pair are above 0x7F, so an astral character
contributes 2, exactly as in the JS string). -/
def nonAsciiUnits (l : List Char) : Nat :=
  ((l.filter (fun c => ¬ c.val < 128)).map utf16Units).sum

/-- `countApproxTokens` from utilTokens.ts: empty text costs 0; otherwise
the heuristic is the ceiling of `ascii/4 + nonAscii/1.5`, which over the
integers equals `(3*ascii + 8*nonAscii + 11) / 12` with natural division
(the JS float computation agrees: the exact value is a multiple of 1/12,
and addends are either exactly representable or at distance at least 1/12
from every integer). -/
def countApproxTokens (s : String) : Nat :=
  if s = "" then 0
  else
    let cs := s.toList
    (3 * asciiUnits cs + 8 * nonAsciiUnits cs + 11) / 12

/-! ## Message data model

Mirrors the duck-typed message shapes the source manipulates: `role`,
optional `name`, `content` (null, string, block array, or other object),
`tool_calls`, `tool_call_id`, and `additional_kwargs.tool_calls`.
Arbitrary JSON objects are modelled opaquely by the string
`JSON.stringify` would produce for them. -/

/-- A value that is either a string or a JSON object (carried in its
serialized form); used for `function.arguments` / `args` / `tool_use.input`. -/
inductive ArgVal where
  | str (s : String)
  | obj (json : String)
deriving DecidableEq

/-- One entry of `tool_calls`: OpenAI shape (`id`, `function.name`,
`function.arguments`) and the LangChain-normalized shape (`name`, `args`). -/
structure ToolCall where
  id : Option String := none
  fnName : Option String := none
  fnArgs : Option ArgVal := none
  lcName : Option String := none
  lcArgs : Option ArgVal := none
deriving DecidableEq

/-- One element of an array-shaped message `content`. -/
inductive Block where
  | str (s : String)
  | text (t : String)
  | toolUse (id : Option String) (name : Option String) (input : Option ArgVal)
  | toolResult (toolUseId : String) (content : String)
  | obj (json : String)
deriving DecidableEq

/-- A message `content` field: null/undefined, a string, an array of blocks,
or some other non-null object (carried in serialized form). -/
inductive Content where
  | nullc
  | str (s : String)
  | arr (blocks : List Block)
  | obj (json : String)
deriving DecidableEq

structure Msg where
  role : String
  name : Option String := none
  content : Content := Content.nullc
  tool_calls : Option (List ToolCall) := none
  tool_call_id : Option String := none
  akToolCalls : Option (List ToolCall) := none
deriving DecidableEq

/-- JS truthiness of an optional string field (absent or empty is falsy). -/
def optTruthy : Option String → Bool
  | some s => s ≠ ""
  | none => false

/-- JS truthiness of an optional string-or-object field (objects are always
truthy, a string is truthy when nonempty). -/
def argTruthy : Option ArgVal → Bool
  | some (ArgVal.str s) => s ≠ ""
  | some (ArgVal.obj _) => true
  | none => false

/-- The text the source extracts from a string-or-object argument value
(`typeof v === "string" ? v : JSON.stringify(v)`). -/
def argText : ArgVal → String
  | ArgVal.str s => s
  | ArgVal.obj j => j

/-- Naive JSON string quoting used by the stringify model. -/
def jq (s : String) : String := "\"" ++ s ++ "\""

/-- Model of `JSON.stringify` on a content block. -/
def stringifyBlock : Block → String
  | Block.str s => jq s
  | Block.text t => "\x7b\"type\":\"text\",\"text\":" ++ jq t ++ "\x7d"
  | Block.toolUse i n inp =>
      "\x7b\"type\":\"tool_use\",\"id\":" ++ jq (i.getD "") ++ ",\"name\":" ++
        jq (n.getD "") ++ ",\"input\":" ++ (match inp with
          | some v => jq (argText v)
          | none => "null") ++ "\x7d"
  | Block.toolResult i c =>
      "\x7b\"type\":\"tool_result\",\"tool_use_id\":" ++ jq i ++ ",\"content\":" ++
        jq c ++ "\x7d"
  | Block.obj j => j

/-- The strings one content block contributes in `extractMessageText`
(the if/else-if cascade over `c`: plain string, truthy `.text`, truthy
`.content`, `tool_use` with truthy input, else `JSON.stringify`). -/
def blockParts : Block → List String
  | Block.str s => [s]
  | Block.text t => if t ≠ "" then [t] else [stringifyBlock (Block.text t)]
  | Block.toolUse i n inp =>
      if argTruthy inp then
        [n.getD "", argText (inp.getD (ArgVal.str ""))]
      else [stringifyBlock (Block.toolUse i n inp)]
  | Block.toolResult i c =>
      if c ≠ "" then [c] else [stringifyBlock (Block.toolResult i c)]
  | Block.obj j => [j]

/-- Strings contributed by the message `content` field. -/
def contentParts : Content → List String
  | Content.nullc => []
  | Content.str s => [s]
  | Content.arr bs => (bs.map blockParts).flatten
  | Content.obj j => [j]

/-- Strings contributed by one `tool_calls` entry in `extractMessageText`:
`function.name`, `function.arguments`, then the LangChain `name`/`args`
only when the corresponding `function.*` field was falsy. -/
def toolCallParts (tc : ToolCall) : List String :=
  (if optTruthy tc.fnName then [tc.fnName.getD ""] else []) ++
  (if argTruthy tc.fnArgs then [argText (tc.fnArgs.getD (ArgVal.str ""))] else []) ++
  (if optTruthy tc.lcName ∧ ¬ optTruthy tc.fnName then [tc.lcName.getD ""] else []) ++
  (if argTruthy tc.lcArgs ∧ ¬ argTruthy tc.fnArgs then
    [argText (tc.lcArgs.getD (ArgVal.str ""))] else [])

/-- Strings contributed by one `additional_kwargs.tool_calls` entry
(only the `function.*` fields are read there). -/
def akToolCallParts (tc : ToolCall) : List String :=
  (if optTruthy tc.fnName then [tc.fnName.getD ""] else []) ++
  (if argTruthy tc.fnArgs then [argText (tc.fnArgs.getD (ArgVal.str ""))] else [])

/-- Model of `Array.prototype.join("\n")`. -/
def joinNl : List String → String
  | [] => ""
  | [s] => s
  | s :: rest => s ++ "\n" ++ joinNl rest

/-- `extractMessageText` from utilTokens.ts: role, truthy name, content
parts, `tool_calls` parts, `additional_kwargs.tool_calls` parts, joined
with newlines. -/
def extractMessageText (m : Msg) : String :=
  joinNl ([m.role] ++
    (if optTruthy m.name then [m.name.getD ""] else []) ++
    contentParts m.content ++
    (match m.tool_calls with
      | some l => (l.map toolCallParts).flatten
      | none => []) ++
    (match m.akToolCalls with
      | some l => (l.map akToolCallParts).flatten
      | none => []))

/-- `countMessagesTokens` from utilTokens.ts: 0 for an empty history,
otherwise the text heuristic over all extracted texts joined by newlines,
plus 4 framing tokens per message. -/
def countMessagesTokens (ms : List Msg) : Nat :=
  if ms = [] then 0
  else countApproxTokens (joinNl (ms.map extractMessageText)) + ms.length * 4

/-! ## Usage normalizer (src/utils/usage.ts)

Provider usage objects are arbitrary JSON; the normalizer only ever observes,
for each probed field, whether it is nullish, whether it is truthy, and what
`Number(...)` coerces it to.  A field value is therefore modelled by exactly
those observations. -/

/-- The result of coercing a JS value with `Number(...)`: NaN, an infinity,
or an integer (provider token counts are integral). -/
inductive JNum where
  | nan
  | posInf
  | negInf
  | int (n : Int)
deriving DecidableEq

/-- A probed field of a provider usage object: absent/`undefined`, `null`,
or a value together with its truthiness and `Number(...)` coercion. -/
inductive JSVal where
  | undef
  | null
  | val (truthy : Bool) (num : JNum)
deriving DecidableEq

/-- `Number(v)` for a modelled field value (`Number(undefined)` is NaN,
`Number(null)` is 0). -/
def coerceNum : JSVal → JNum
  | JSVal.undef => JNum.nan
  | JSVal.null => JNum.int 0
  | JSVal.val _ n => n

/-- JS truthiness of a modelled field value. -/
def truthyV : JSVal → Bool
  | JSVal.val t _ => t
  | _ => false

/-- JS `+` on two numbers, including the NaN/infinity cases. -/
def jnumAdd : JNum → JNum → JNum
  | JNum.nan, _ => JNum.nan
  | _, JNum.nan => JNum.nan
  | JNum.posInf, JNum.negInf => JNum.nan
  | JNum.negInf, JNum.posInf => JNum.nan
  | JNum.posInf, _ => JNum.posInf
  | _, JNum.posInf => JNum.posInf
  | JNum.negInf, _ => JNum.negInf
  | _, JNum.negInf => JNum.negInf
  | JNum.int a, JNum.int b => JNum.int (a + b)

/-- The `num(...vals)` helper of usage.ts: the first candidate that is not
nullish and does not coerce to NaN yields its coercion, otherwise
`undefined`.  (The `v === 0` shortcut in the source returns the same value
the general path would, so it needs no separate case.) -/
def numFirst : List JSVal → Option JNum
  | [] => none
  | v :: rest =>
    if v = JSVal.undef ∨ v = JSVal.null then numFirst rest
    else if coerceNum v = JNum.nan then numFirst rest
    else some (coerceNum v)

/-- The `safe(v)` helper of usage.ts on an already-coerced number:
finite and nonnegative yields the value, everything else yields 0. -/
def safeNum : JNum → Nat
  | JNum.int n => if 0 ≤ n then n.toNat else 0
  | _ => 0

/-- `safe` applied to a `number | undefined` (undefined coerces to NaN). -/
def safeOptNum : Option JNum → Nat
  | none => 0
  | some n => safeNum n

/-- `safe` applied directly to a field value. -/
def safeVal (v : JSVal) : Nat := safeNum (coerceNum v)

/-- JS `a || b || ...` over field values: the first truthy value, else the
last one. -/
def jsOrChain : List JSVal → JSVal
  | [] => JSVal.undef
  | [v] => v
  | v :: rest => if truthyV v then v else jsOrChain rest

/-- A nested `*_details` object with the fields usage.ts probes; absent
fields are `undefined`. -/
structure DetailsObj where
  cached_tokens : JSVal := JSVal.undef
  cached : JSVal := JSVal.undef
  cache_read : JSVal := JSVal.undef
  audio_tokens : JSVal := JSVal.undef
  audio : JSVal := JSVal.undef
  reasoning_tokens : JSVal := JSVal.undef
  accepted_prediction_tokens : JSVal := JSVal.undef
  rejected_prediction_tokens : JSVal := JSVal.undef
deriving DecidableEq

/-- A provider usage object restricted to the keys usage.ts probes; absent
keys are `undefined` (for numeric keys) or `none` (for detail objects). -/
structure RawUsage where
  prompt_tokens : JSVal := JSVal.undef
  input_tokens : JSVal := JSVal.undef
  promptTokens : JSVal := JSVal.undef
  total_prompt_tokens : JSVal := JSVal.undef
  completion_tokens : JSVal := JSVal.undef
  output_tokens : JSVal := JSVal.undef
  completionTokens : JSVal := JSVal.undef
  total_completion_tokens : JSVal := JSVal.undef
  total_tokens : JSVal := JSVal.undef
  totalTokens : JSVal := JSVal.undef
  cached_input_tokens : JSVal := JSVal.undef
  cached_prompt_tokens : JSVal := JSVal.undef
  cache_read_input_tokens : JSVal := JSVal.undef
  prompt_tokens_details : Option DetailsObj := none
  promptTokensDetails : Option DetailsObj := none
  input_token_details : Option DetailsObj := none
  inputTokenDetails : Option DetailsObj := none
  completion_tokens_details : Option DetailsObj := none
  completionTokensDetails : Option DetailsObj := none
  output_token_details : Option DetailsObj := none
  outputTokenDetails : Option DetailsObj := none
deriving DecidableEq

/-- `a || b || ... || ZeroObj` over detail objects (objects are always truthy,
absent keys falsy). -/
def firstDetails (l : List (Option DetailsObj)) : DetailsObj :=
  match l with
  | [] => {}
  | some d :: _ => d
  | none :: rest => firstDetails rest

structure PromptDetailsOut where
  cached_tokens : Nat
  audio_tokens : Nat
deriving DecidableEq

structure CompletionDetailsOut where
  reasoning_tokens : Nat
  audio_tokens : Nat
  accepted_prediction_tokens : Nat
  rejected_prediction_tokens : Nat
deriving DecidableEq

/-- The canonical usage record produced by `normalizeUsage`. -/
structure NormalizedUsage where
  prompt_tokens : Nat
  completion_tokens : Nat
  total_tokens : Nat
  prompt_tokens_details : PromptDetailsOut
  completion_tokens_details : CompletionDetailsOut
  raw : RawUsage
deriving DecidableEq

/-- `normalizeUsage` from usage.ts.  A falsy argument (null, undefined, 0,
empty string) is modelled by `none` and yields `undefined`. -/
def normalizeUsage (raw? : Option RawUsage) : Option NormalizedUsage :=
  match raw? with
  | none => none
  | some r =>
    let prompt := numFirst
      [r.prompt_tokens, r.input_tokens, r.promptTokens, r.total_prompt_tokens]
    let completion := numFirst
      [r.completion_tokens, r.output_tokens, r.completionTokens, r.total_completion_tokens]
    let sumPC := jnumAdd (prompt.getD (JNum.int 0)) (completion.getD (JNum.int 0))
    let total := numFirst [r.total_tokens, r.totalTokens, JSVal.val true sumPC]
    let totalNum :=
      match total with
      | some n => if n = JNum.int 0 then sumPC else n
      | none => sumPC
    let pd := firstDetails
      [r.prompt_tokens_details, r.promptTokensDetails, r.input_token_details, r.inputTokenDetails]
    let cd := firstDetails
      [r.completion_tokens_details, r.completionTokensDetails, r.output_token_details, r.outputTokenDetails]
    some
      { prompt_tokens := safeOptNum prompt
        completion_tokens := safeOptNum completion
        total_tokens := safeNum totalNum
        prompt_tokens_details :=
          { cached_tokens := safeVal (jsOrChain
              [pd.cached_tokens, pd.cached, pd.cache_read,
               r.cached_input_tokens, r.cached_prompt_tokens, r.cache_read_input_tokens])
            audio_tokens := safeVal (jsOrChain [pd.audio_tokens, pd.audio]) }
        completion_tokens_details :=
          { reasoning_tokens := safeVal cd.reasoning_tokens
            audio_tokens := safeVal cd.audio_tokens
            accepted_prediction_tokens := safeVal cd.accepted_prediction_tokens
            rejected_prediction_tokens := safeVal cd.rejected_prediction_tokens }
        raw := r }

/-! ## Context summarization (src/nodes/contextSummarize.ts) -/

/-- `m.tool_calls` read as an array (`Array.isArray(...) ? ... : []`). -/
def msgToolCalls (m : Msg) : List ToolCall := m.tool_calls.getD []

/-- The truthy `id` fields of a tool-call list. -/
def truthyIds (tcs : List ToolCall) : List String :=
  (tcs.filterMap ToolCall.id).filter (fun s => s ≠ "")

/-- One live tool invocation record of `toolHistory`. -/
structure ToolHistoryEntry where
  executionId : String
  toolName : String := ""
  args : String := ""
  output : String := ""
  timestamp : String := ""
deriving DecidableEq

/-- The slice of agent state the summarization node reads and writes. -/
structure SState where
  messages : List Msg := []
  summaries : List String := []
  toolHistory : List ToolHistoryEntry := []
  toolHistoryArchived : List ToolHistoryEntry := []
  toolCallCount : Nat := 0
deriving DecidableEq

/-- The partial state (`Partial<SmartState>`) a node returns; absent keys
leave the corresponding state field untouched when merged. -/
structure SDelta where
  messages : Option (List Msg) := none
  summaries : Option (List String) := none
deriving DecidableEq

/-- Merging a node result into the state (`{ ...state, ...delta }`). -/
def applySDelta (s : SState) (d : SDelta) : SState :=
  { s with
    messages := d.messages.getD s.messages
    summaries := d.summaries.getD s.summaries }

/-- Set insertion for the pending-tool-call-id set of
`validateMessageSequence`. -/
def pendingInsert (p : List String) (id : String) : List String :=
  if id ∈ p then p else p ++ [id]

/-- Set deletion for the pending-tool-call-id set. -/
def pendingDelete (p : List String) (id : String) : List String :=
  p.filter (fun s => s ≠ id)

/-- Register the truthy ids of an assistant message's tool calls. -/
def registerIds (pending : List String) (tcs : List ToolCall) : List String :=
  (truthyIds tcs).foldl pendingInsert pending

/-- The walk of `validateMessageSequence`: assistant messages clear or
register pending tool-call ids, tool messages are kept only when their
`tool_call_id` is pending (and then consume it), everything else passes. -/
def validateAux (pending : List String) : List Msg → List Msg
  | [] => []
  | m :: rest =>
    if m.role = "assistant" then
      if msgToolCalls m = [] then m :: validateAux [] rest
      else m :: validateAux (registerIds pending (msgToolCalls m)) rest
    else if m.role = "tool" then
      match m.tool_call_id with
      | some id =>
        if id ≠ "" ∧ id ∈ pending then m :: validateAux (pendingDelete pending id) rest
        else validateAux pending rest
      | none => validateAux pending rest
    else m :: validateAux pending rest

/-- `validateMessageSequence` from contextSummarize.ts. -/
def validateMessageSequence (ms : List Msg) : List Msg := validateAux [] ms

/-- All truthy tool-call ids emitted by assistant messages that carry a
`tool_calls` array (the keys of `toolCallIdToAssistantIdx`). -/
def liveAssistantIds (ms : List Msg) : List String :=
  (ms.map (fun m =>
    if m.role = "assistant" ∧ m.tool_calls.isSome then truthyIds (msgToolCalls m)
    else [])).flatten

/-- The history rewrite of the summarization node: tool messages whose
`tool_call_id` is truthy and matches a live assistant tool call get the
`"SUMMARIZED"` placeholder (unless they already have it); orphan tool
messages are dropped; everything else is untouched. -/
def summarizeRewrite (ms : List Msg) : List Msg :=
  let live := liveAssistantIds ms
  ms.filterMap (fun m =>
    if m.role = "tool" then
      match m.tool_call_id with
      | some id =>
        if id ≠ "" ∧ id ∈ live then
          if m.content = Content.str "SUMMARIZED" then some m
          else some { m with content := Content.str "SUMMARIZED" }
        else none
      | none => none
    else some m)

/-- The id of the synthetic compression tool call
(`call_summary_` followed by the current timestamp). -/
def summaryToolCallId (now : Nat) : String := "call_summary_" ++ toString now

/-- The synthetic assistant message that "calls" the virtual
`summarize_context` tool. -/
def assistantSummaryCall (now : Nat) : Msg :=
  { role := "assistant"
    content := Content.str
      "Context limit reached. Summarizing conversation history to reduce token usage."
    tool_calls := some [{ id := some (summaryToolCallId now)
                          fnName := some "summarize_context"
                          fnArgs := some (ArgVal.str "\x7b\x7d") }] }

/-- The synthetic tool message that carries the generated summary. -/
def toolSummaryResponse (now : Nat) (summaryText : String) : Msg :=
  { role := "tool"
    tool_call_id := some (summaryToolCallId now)
    name := some "summarize_context"
    content := Content.str summaryText }

/-- Tool messages whose content is not the placeholder yet
(`compressableMessages` in the source). -/
def compressibleMessages (ms : List Msg) : List Msg :=
  ms.filter (fun m => m.role = "tool" ∧ m.content ≠ Content.str "SUMMARIZED")

/-- `createContextSummarizeNode`'s node body.  `enabled` is the resolved
`getSummarizationConfig(opts).enabled`; `outcome` is the result of the
summarization model call (`none` models `model.invoke` throwing, in which
case the node aborts with no state change; `some t` models a successful
call whose extracted summary text is `t`).  The transcript building,
event emission, and trace recording do not affect the returned delta and
are not modelled. -/
def contextSummarizeNode (enabled : Bool) (outcome : Option String) (now : Nat)
    (s : SState) : SDelta :=
  if ¬ enabled then {}
  else if compressibleMessages s.messages = [] then {}
  else
    match outcome with
    | none => {}
    | some summaryText =>
      let newMessages := summarizeRewrite s.messages
      let validated := validateMessageSequence newMessages
      let finalMessages :=
        validated ++ [assistantSummaryCall now, toolSummaryResponse now summaryText]
      { messages := some finalMessages
        summaries := some (s.summaries ++ [summaryText]) }

/-! ## Snapshot codec and approval resolver

`src/utils/stateSnapshot.ts` and `src/utils/toolApprovals.ts` are not among
the repository sources (only their unit tests and their call sites in
agent.ts are), so the two operations are modelled from the spec, guided by
the behaviour their unit tests pin down. -/

/-- A `ctx` entry value: serializable data (strings, flags, small records)
or a non-serializable internal object (callback, trace session, live
pause/cancellation handle). -/
inductive CtxVal where
  | str (s : String)
  | flag (b : Bool)
  | pausedInfo (stage : String)
  | resolvedInfo (id : String) (status : String)
  | handle
deriving DecidableEq

/-- A `ctx` bag: ordered key/value entries with object-assignment update. -/
abbrev CtxBag := List (String × CtxVal)

/-- JS object property assignment on the ctx bag. -/
def ctxSet (ctx : CtxBag) (k : String) (v : CtxVal) : CtxBag :=
  if ctx.any (fun e => e.1 = k) then
    ctx.map (fun e => if e.1 = k then (k, v) else e)
  else ctx ++ [(k, v)]

/-- JS property lookup on the ctx bag. -/
def ctxGet (ctx : CtxBag) (k : String) : Option CtxVal :=
  (ctx.find? (fun e => e.1 = k)).map Prod.snd

/-- A pending tool-approval record. -/
structure PendingApproval where
  id : String
  toolCallId : String
  toolName : String := ""
  args : String := ""
  requestedAt : String := ""
  status : String := "pending"
  decidedBy : Option String := none
  decidedAt : Option String := none
  comment : Option String := none
  approvedArgs : Option String := none
deriving DecidableEq

/-- The durable agent state as the snapshot codec and approval resolver
see it. -/
structure AState where
  messages : List Msg := []
  toolCallCount : Nat := 0
  toolHistory : List ToolHistoryEntry := []
  toolHistoryArchived : List ToolHistoryEntry := []
  summaries : List String := []
  pendingApprovals : List PendingApproval := []
  ctx : CtxBag := []
deriving DecidableEq

structure SnapshotMeta where
  createdAt : String
  tag : Option String := none
  paused : Option CtxVal := none
deriving DecidableEq

structure RuntimeHint where
  agentName : Option String := none
  version : Option String := none
  tools : List String := []
deriving DecidableEq

/-- A persisted snapshot: state, metadata, optional runtime hint. -/
structure AgentSnapshot where
  state : AState
  metadata : SnapshotMeta
  runtimeHint : Option RuntimeHint := none
deriving DecidableEq

/-- Whether a ctx value survives serialization. -/
def serializableVal : CtxVal → Bool
  | CtxVal.handle => false
  | _ => true

/-- Whether a ctx key is internal-only (`__`-prefixed markers: callbacks,
trace sessions, pause/cancellation handles); computes
`key.startsWith("__")`. -/
def internalCtxKey (k : String) : Bool :=
  match k.toList with
  | '_' :: '_' :: _ => true
  | _ => false

/-- Modelled from the spec: `captureSnapshot` of src/utils/stateSnapshot.ts
(the file is not among the sources).  Per spec §4.4 it deep-clones the
state, removes every ctx entry whose key is internal-only or whose value is
not serializable, records a creation timestamp and optional tag, notes a
pause marker in the metadata, and (unless disabled) attaches a runtime
hint.  Deep cloning is the identity on immutable values. -/
def captureSnapshot (createdAt : String) (tag : Option String)
    (hint : Option RuntimeHint) (s : AState) : AgentSnapshot :=
  { state :=
      { s with ctx := s.ctx.filter (fun e => ¬ internalCtxKey e.1 ∧ serializableVal e.2) }
    metadata :=
      { createdAt := createdAt, tag := tag, paused := ctxGet s.ctx "__paused" }
    runtimeHint := hint }

/-- Merge caller-supplied ctx overrides into a stored ctx. -/
def ctxMerge (base overrides : CtxBag) : CtxBag :=
  overrides.foldl (fun acc e => ctxSet acc e.1 e.2) base

/-- Modelled from the spec: `restoreSnapshot` of src/utils/stateSnapshot.ts
(the file is not among the sources).  Per spec §4.4 it deep-clones the
stored state, merges (default) or replaces ctx with caller overrides, and
marks the result with `__restoredFromSnapshot`. -/
def restoreSnapshot (overrides : Option CtxBag) (mergeCtx : Bool)
    (snap : AgentSnapshot) : AState :=
  let baseCtx :=
    match overrides with
    | none => snap.state.ctx
    | some o => if mergeCtx then ctxMerge snap.state.ctx o else o
  { snap.state with
    ctx := ctxSet baseCtx "__restoredFromSnapshot" (CtxVal.flag true) }

/-- The caller-supplied decision for a pending approval. -/
structure ToolApprovalResolution where
  id : String
  approved : Bool
  decidedBy : Option String := none
  comment : Option String := none
  approvedArgs : Option String := none
deriving DecidableEq

/-- Split a list at the first record matching a predicate. -/
def splitAtMatch (pred : PendingApproval → Bool) :
    List PendingApproval →
    Option (List PendingApproval × PendingApproval × List PendingApproval)
  | [] => none
  | p :: rest =>
    if pred p then some ([], p, rest)
    else (splitAtMatch pred rest).map (fun r => (p :: r.1, r.2.1, r.2.2))

/-- Look up a pending record by its own id, falling back to the tool-call
id it was generated for. -/
def matchApproval (l : List PendingApproval) (rid : String) :
    Option (List PendingApproval × PendingApproval × List PendingApproval) :=
  match splitAtMatch (fun p => p.id = rid) l with
  | some r => some r
  | none => splitAtMatch (fun p => p.toolCallId = rid) l

/-- The updated record produced by a successful resolution: status set to
approved/rejected, decision metadata attached, `approvedArgs` defaulting to
the original args. -/
def decideApproval (now : String) (res : ToolApprovalResolution)
    (p : PendingApproval) : PendingApproval :=
  { p with
    status := if res.approved then "approved" else "rejected"
    decidedBy := res.decidedBy
    decidedAt := some now
    comment := res.comment
    approvedArgs :=
      match res.approvedArgs with
      | some a => some a
      | none => some p.args }

/-- Modelled from the spec: `resolveToolApprovalState` of
src/utils/toolApprovals.ts (the file is not among the sources).  Per spec
§4.5 and its unit tests: looks up the pending record by id or, as a
fallback, by tool-call id; unknown identifiers fail with "Pending approval
not found"; non-pending statuses fail with "already completed"; otherwise
returns a state copy with exactly that record decided, and ctx signals
`__resumeStage = "tools"` and `__approvalResolved` set so that resumed
execution skips straight to tool dispatch. -/
def resolveToolApprovalState (now : String) (state : AState)
    (res : ToolApprovalResolution) : Except String AState :=
  match matchApproval state.pendingApprovals res.id with
  | none => Except.error "Pending approval not found"
  | some (pre, p, post) =>
    if p.status ≠ "pending" then
      Except.error "Tool approval already completed"
    else
      let updated := decideApproval now res p
      Except.ok
        { state with
          pendingApprovals := pre ++ updated :: post
          ctx := ctxSet
            (ctxSet state.ctx "__resumeStage" (CtxVal.str "tools"))
            "__approvalResolved" (CtxVal.resolvedInfo p.id updated.status) }

/-! ## Provider-shape repair passes (src/nodes/agentCore.ts) -/

/-- JS `a || b` on optional string fields (first truthy, else second). -/
def orOptStr (a b : Option String) : Option String :=
  if optTruthy a then a else b

/-- `extractToolUses` of agentCore.ts: tool uses of a message, from
`tool_calls` or (when that is nullish) `additional_kwargs.tool_calls`,
keeping entries with a nonempty string id, paired with
`function.name || name`. -/
def extractToolUses (m : Msg) : List (String × Option String) :=
  let tcs :=
    match m.tool_calls with
    | some l => l
    | none => m.akToolCalls.getD []
  tcs.filterMap (fun tc =>
    match tc.id with
    | some i => if i ≠ "" then some (i, orOptStr tc.fnName tc.lcName) else none
    | none => none)

/-- The placeholder tool-result message inserted for a missing tool result. -/
def placeholderToolMsg (tu : String × Option String) : Msg :=
  { role := "tool"
    name := some (if optTruthy tu.2 then tu.2.getD "" else "unknown_tool")
    tool_call_id := some tu.1
    content := Content.str
      "SUMMARIZED/DEFERRED: tool result missing in transcript; inserted placeholder for tool_result adjacency." }

/-- Phase 3 of `normalizeBedrockToolPairing`: after each assistant message
with tool uses whose next message is not the tool result for its first
tool-use id, insert placeholder results for all its tool uses (and skip
over them). -/
def bedrockPhase3 : List Msg → List Msg
  | [] => []
  | m :: rest =>
    if m.role = "assistant" then
      match extractToolUses m with
      | [] => m :: bedrockPhase3 rest
      | tu :: tus =>
        let nextOk : Bool :=
          match rest with
          | next :: _ => next.role = "tool" ∧ next.tool_call_id = some tu.1
          | [] => false
        if nextOk then m :: bedrockPhase3 rest
        else m :: (((tu :: tus).map placeholderToolMsg) ++ bedrockPhase3 rest)
    else m :: bedrockPhase3 rest

/-- `normalizeBedrockToolPairing` of agentCore.ts: collect the valid
tool-call ids of assistant messages, drop orphan tool messages, then
enforce tool-result adjacency by inserting placeholders. -/
def normalizeBedrockToolPairing (ms : List Msg) : List Msg :=
  let validIds := (ms.map (fun m =>
    if m.role = "assistant" then (extractToolUses m).map Prod.fst else [])).flatten
  let filtered := ms.filter (fun m =>
    if m.role = "tool" then
      match m.tool_call_id with
      | some id => id ≠ "" ∧ id ∈ validIds
      | none => false
    else true)
  bedrockPhase3 filtered

/-- The truthy id of a `tool_use` content block, if any. -/
def blockToolUseId : Block → Option String
  | Block.toolUse (some i) _ _ => if i ≠ "" then some i else none
  | _ => none

/-- The blocks of array-shaped content (else the empty list). -/
def contentArr : Content → List Block
  | Content.arr bs => bs
  | _ => []

/-- Drop `tool_use` blocks whose id is already covered by the given id set. -/
def phase1Filter (ids : List String) (bs : List Block) : List Block :=
  bs.filter (fun b =>
    match blockToolUseId b with
    | some i => ¬ i ∈ ids
    | none => true)

/-- Rebuild message content after stripping blocks: empty becomes `""`, a
single surviving text block becomes its text, otherwise the block array. -/
def collapseContent (filtered : List Block) : Content :=
  if filtered = [] then Content.str ""
  else
    match filtered with
    | [Block.text t] => Content.str t
    | _ => Content.arr filtered

/-- Phase 1 of `ensureUniqueToolCallIds` on one assistant message: strip
`tool_use` content blocks already covered by `tool_calls`, then those
already covered by `additional_kwargs.tool_calls`. -/
def phase1 (m : Msg) : Msg :=
  let hasTc := msgToolCalls m ≠ []
  let ca := contentArr m.content
  let hasCtu := ca.any (fun b => (blockToolUseId b).isSome)
  let m1 :=
    if hasTc ∧ hasCtu then
      let ids := truthyIds (msgToolCalls m)
      let filtered := phase1Filter ids ca
      if filtered.length ≠ ca.length then { m with content := collapseContent filtered }
      else m
    else m
  if m1.akToolCalls.getD [] ≠ [] then
    match m1.content with
    | Content.arr bs =>
      let akIds := truthyIds (m1.akToolCalls.getD [])
      let filtered := phase1Filter akIds bs
      if filtered.length ≠ bs.length then { m1 with content := collapseContent filtered }
      else m1
    | _ => m1
  else m1

/-- Insertion-order deduplication (JS `Set` iteration order). -/
def dedupFirstAux (seen : List String) : List String → List String
  | [] => []
  | x :: xs =>
    if x ∈ seen then dedupFirstAux seen xs
    else x :: dedupFirstAux (x :: seen) xs

/-- Insertion-order deduplication of a string list. -/
def dedupFirst (l : List String) : List String := dedupFirstAux [] l

/-- All truthy tool-call ids a message carries, from `tool_calls`, the
`tool_use` content blocks, and `additional_kwargs.tool_calls`, without
deduplication. -/
def perMsgIds (m : Msg) : List String :=
  truthyIds (msgToolCalls m) ++
    (contentArr m.content).filterMap blockToolUseId ++
    truthyIds (m.akToolCalls.getD [])

/-- `idsInMessage`: all truthy ids of a message, from `tool_calls`, the
surviving `tool_use` content blocks, and `additional_kwargs.tool_calls`,
in `Set` insertion order. -/
def idsInMessage (m : Msg) : List String :=
  dedupFirst (perMsgIds m)

/-- The replacement id generated for a duplicate
(`id + "_" + Date.now() + "_" + counter`). -/
def genId (base : String) (now counter : Nat) : String :=
  base ++ "_" ++ toString now ++ "_" ++ toString counter

/-- Rename one id inside a message, in all three tool-call representations. -/
def substIdToolCalls (old new : String) (tcs : List ToolCall) : List ToolCall :=
  tcs.map (fun tc => if tc.id = some old then { tc with id := some new } else tc)

/-- Rename one id in surviving `tool_use` content blocks. -/
def substIdBlocks (old new : String) (bs : List Block) : List Block :=
  bs.map (fun b =>
    match b with
    | Block.toolUse (some i) n inp =>
      if i = old then Block.toolUse (some new) n inp else b
    | _ => b)

/-- Rename one id in a message (tool_calls, content blocks, ak tool_calls). -/
def substIdMsg (old new : String) (m : Msg) : Msg :=
  { m with
    tool_calls := m.tool_calls.map (substIdToolCalls old new)
    content :=
      match m.content with
      | Content.arr bs => Content.arr (substIdBlocks old new bs)
      | c => c
    akToolCalls := m.akToolCalls.map (substIdToolCalls old new) }

/-- Rename one id in `tool_result` content blocks. -/
def patchBlocksResult (old new : String) (bs : List Block) : List Block :=
  bs.map (fun b =>
    match b with
    | Block.toolResult i c => if i = old then Block.toolResult new c else b
    | _ => b)

/-- The reference patch applied to one message downstream of a rename:
retarget a matching `tool_call_id` on a tool message and all matching
`tool_result` content blocks. -/
def patchMsgRefs (old new : String) (m : Msg) : Msg :=
  let m1 :=
    if m.role = "tool" ∧ m.tool_call_id = some old then
      { m with tool_call_id := some new }
    else m
  match m1.content with
  | Content.arr bs => { m1 with content := Content.arr (patchBlocksResult old new bs) }
  | _ => m1

/-- Patch downstream references to a renamed id: tool messages via
`tool_call_id` and `tool_result` content blocks via `tool_use_id`, stopping
at the next assistant message. -/
def patchDownstream (old new : String) : List Msg → List Msg
  | [] => []
  | m :: rest =>
    if m.role = "assistant" then m :: rest
    else patchMsgRefs old new m :: patchDownstream old new rest

/-- The phase-2 rename loop over the ids of one message: already-used ids
are renamed to a fresh generated id (and the rename is propagated
downstream), fresh ids are recorded as used. -/
def renameIdsAux (now : Nat) :
    List String → Msg → List Msg → List String → Nat →
    Msg × List Msg × List String × Nat
  | [], m, rest, used, counter => (m, rest, used, counter)
  | id :: ids, m, rest, used, counter =>
    if id ∈ used then
      renameIdsAux now ids (substIdMsg id (genId id now counter) m)
        (patchDownstream id (genId id now counter) rest)
        (used ++ [genId id now counter]) (counter + 1)
    else renameIdsAux now ids m rest (used ++ [id]) counter

/-- The message-by-message walk of `ensureUniqueToolCallIds`.  The natural
number is fuel equal to the remaining message count (downstream patching
preserves lengths, so it never runs out). -/
def euAux (now : Nat) : Nat → List String → Nat → List Msg → List Msg
  | 0, _, _, msgs => msgs
  | _ + 1, _, _, [] => []
  | fuel + 1, used, counter, m :: rest =>
    if m.role ≠ "assistant" then m :: euAux now fuel used counter rest
    else if ¬ msgToolCalls m ≠ [] ∧
        ¬ (contentArr m.content).any (fun b => (blockToolUseId b).isSome) ∧
        ¬ m.akToolCalls.getD [] ≠ [] then
      m :: euAux now fuel used counter rest
    else
      (renameIdsAux now (idsInMessage (phase1 m)) (phase1 m) rest used counter).1 ::
        euAux now fuel
          (renameIdsAux now (idsInMessage (phase1 m)) (phase1 m) rest used counter).2.2.1
          (renameIdsAux now (idsInMessage (phase1 m)) (phase1 m) rest used counter).2.2.2
          (renameIdsAux now (idsInMessage (phase1 m)) (phase1 m) rest used counter).2.1

/-- `ensureUniqueToolCallIds` of agentCore.ts, with the current timestamp
as a parameter. -/
def ensureUniqueToolCallIds (now : Nat) (ms : List Msg) : List Msg :=
  euAux now ms.length [] 0 ms

/-- All truthy tool-call ids an assistant message carries (used to state
the global-uniqueness property). -/
def assistantIds (m : Msg) : List String :=
  if m.role = "assistant" then perMsgIds m else []

/-- The pool of candidate duplicate ids of a history: for each assistant
message, the deduplicated truthy ids it carries after the phase-1 block
cleanup; every id the rename pass ever records or uses as a generation base
lies in this pool. -/
def origIds (ms : List Msg) : List String :=
  (ms.map (fun m =>
    if m.role = "assistant" then idsInMessage (phase1 m) else [])).flatten

/-- Total number of candidate rename slots of a history: an upper bound on
the rename counter the pass can ever reach. -/
def pendingRenames (ms : List Msg) : Nat :=
  (ms.map (fun m =>
    if m.role = "assistant" then (idsInMessage (phase1 m)).length else 0)).sum

/-! ## Turn-loop controller (src/agent.ts, src/nodes/toolLimitFinalize.ts)

The loop is embedded for an agent configured without guardrails, without a
structured-output schema, without a state-change (checkpoint) callback and
without streaming: in agent.ts those collaborators are skipped entirely in
that configuration (empty guardrail list, `onStateChange` undefined,
`outputSchema` undefined), so the remaining control flow is exactly the
one modelled here.  Cancellation sources (token, abort signal, deadline)
are modelled by a single constant "a cancellation source has fired" flag. -/

/-- The run-scoped `ctx` signals the modelled loop reads or writes. -/
structure LCtx where
  cancelRequested : Bool := false
  cancelled : Option String := none
  finalizedDueToToolLimit : Bool := false
  needsSummarization : Bool := false
  awaitingApproval : Bool := false
  finalizedDueToStructuredOutput : Bool := false
  resumeStage : Option String := none
  paused : Bool := false
deriving DecidableEq

/-- The state threaded through the loop. -/
structure LState where
  messages : List Msg := []
  toolCallCount : Nat := 0
  ctx : LCtx := {}
deriving DecidableEq

/-- The configured tool-call ceiling: a finite count or `Infinity`. -/
inductive MaxTC where
  | infinite
  | fin (n : Nat)
deriving DecidableEq

/-- `maxToolCalls === undefined ? 50 : maxToolCalls` from agent.ts. -/
def resolveMaxToolCalls (configured : Option MaxTC) : MaxTC :=
  configured.getD (MaxTC.fin 50)

/-- The iteration ceiling of the loop:
`maxToolCalls === Infinity ? 100 : Math.max(maxToolCalls * 3 + 10, 40)`. -/
def iterationLimit : MaxTC → Nat
  | MaxTC.infinite => 100
  | MaxTC.fin n => max (n * 3 + 10) 40

/-- `toolCallCount >= maxToolCalls` (false for `Infinity`). -/
def tcLimitReached (count : Nat) : MaxTC → Bool
  | MaxTC.infinite => false
  | MaxTC.fin n => count ≥ n

/-- The tool calls requested by the latest message
(`Array.isArray(lastMsg?.tool_calls) ? lastMsg.tool_calls : []`). -/
def lastToolCalls (ms : List Msg) : List ToolCall :=
  match ms.getLast? with
  | some m => msgToolCalls m
  | none => []

/-- The finalize notice appended by `createToolLimitFinalizeNode`. -/
def toolLimitNotice : Msg :=
  { role := "user"
    content := Content.str
      "[System Notice] Tool-call limit reached. Produce the best possible final answer using the available context and prior tool outputs. Do not call any more tools." }

/-- `createToolLimitFinalizeNode`'s node: append the notice and set the
`__finalizedDueToToolLimit` signal. -/
def finalizeStep (s : LState) : LState :=
  { s with
    messages := s.messages ++ [toolLimitNotice]
    ctx := { s.ctx with finalizedDueToToolLimit := true } }

/-- The agent step of the loop: invoke the reasoning engine on the
provider-shape-repaired history and append its response (agentCore.ts;
usage accounting and tracing do not affect the modelled state). -/
def agentStep (engine : List Msg → Msg) (now : Nat) (s : LState) : LState :=
  { s with
    messages := s.messages ++
      [engine (ensureUniqueToolCallIds now (normalizeBedrockToolPairing s.messages))] }

/-- Modelled from the spec: the tool-dispatch collaborator
(src/nodes/tools.ts is not among the sources).  Per spec §6 it executes
every requested tool call of the latest response, appends one tool-result
message per call, and increments `toolCallCount` accordingly; no tool
requiring approval and no structured-output finalize tool is configured
here, so the `awaitingApproval` / `finalizedDueToStructuredOutput` signals
are never set. -/
def toolsStep (toolResult : ToolCall → String) (s : LState) : LState :=
  let tcs := lastToolCalls s.messages
  { s with
    messages := s.messages ++ tcs.map (fun tc =>
      { role := "tool"
        tool_call_id := tc.id
        name := tc.fnName
        content := Content.str (toolResult tc) })
    toolCallCount := s.toolCallCount + tcs.length }

/-- The cancel gate: record the cancellation marker at a stage. -/
def cancelAt (stage : String) (s : LState) : LState :=
  { s with ctx := { s.ctx with cancelled := some stage } }

/-- The budget gate threshold: `summarization.maxTokens` defaulting
to 50000. -/
def budgetExceeded (s : LState) : Bool :=
  countMessagesTokens s.messages > 50000

/-- The result of running the loop: final state, number of iterations
performed, and (as instrumentation for stating hypotheses about a run) the
state at the start of each performed iteration. -/
structure LoopRun where
  final : LState
  iters : Nat
  entries : List LState
deriving DecidableEq

/-- One-to-one embedding of the `while (iterations < iterationLimit)` body
of `runLoop` for the configuration described above, with the remaining
permitted iteration count as fuel: cancel gate, budget gate, agent step
(skipped when resuming into tools), tool-limit finalize gate, terminal
no-tool-calls check, tool dispatch. -/
def runLoopAux (engine : List Msg → Msg) (toolResult : ToolCall → String)
    (now : Nat) (m : MaxTC) :
    Nat → Bool → LState → LoopRun
  | 0, _, s => { final := s, iters := 0, entries := [] }
  | fuel + 1, skip, s =>
    if s.ctx.cancelRequested then
      { final := cancelAt "loop" s, iters := 1, entries := [s] }
    else if ¬ skip ∧ budgetExceeded s then
      { final := { s with ctx := { s.ctx with needsSummarization := true } }
        iters := 1, entries := [s] }
    else
      let s1 := if skip then s else agentStep engine now s
      let tcs := lastToolCalls s1.messages
      if s1.ctx.finalizedDueToToolLimit then
        { final := s1, iters := 1, entries := [s] }
      else if tcLimitReached s1.toolCallCount m ∧ tcs ≠ [] then
        let r := runLoopAux engine toolResult now m fuel false (finalizeStep s1)
        { final := r.final, iters := r.iters + 1, entries := s :: r.entries }
      else if tcs = [] then
        { final := s1, iters := 1, entries := [s] }
      else
        let s3 := toolsStep toolResult s1
        if s3.ctx.awaitingApproval then
          { final := s3, iters := 1, entries := [s] }
        else if s3.ctx.finalizedDueToStructuredOutput then
          { final := s3, iters := 1, entries := [s] }
        else
          let r := runLoopAux engine toolResult now m fuel false s3
          { final := r.final, iters := r.iters + 1, entries := s :: r.entries }

/-- Modelled from the spec: `createResolverNode` (src/nodes/resolver.ts is
not among the sources).  Its unit tests pin it down as passing messages,
counters, histories and ctx through unchanged. -/
def resolverNode (s : LState) : LState := s

/-- `runLoop` of agent.ts for the configuration described above: resolve
the state, strip the `__paused` marker and consume a `__resumeStage`
signal, then run the bounded loop with the iteration ceiling as fuel. -/
def runLoop (engine : List Msg → Msg) (toolResult : ToolCall → String)
    (now : Nat) (configuredMax : Option MaxTC) (initial : LState) : LoopRun :=
  let s0 := resolverNode initial
  let s1 :=
    if s0.ctx.paused then { s0 with ctx := { s0.ctx with paused := false } } else s0
  let skip := s1.ctx.resumeStage = some "tools"
  let s2 :=
    match s1.ctx.resumeStage with
    | some _ => { s1 with ctx := { s1.ctx with resumeStage := none } }
    | none => s1
  let m := resolveMaxToolCalls configuredMax
  runLoopAux engine toolResult now m (iterationLimit m) skip s2

/-! ## Tool list deduplication (src/nodes/agentCore.ts lines 21-34) -/

/-- A tool as the dedup pass sees it: optional `name`, optional
`schema.title`, and an opaque payload tag distinguishing distinct tool
objects. -/
structure ToolRec where
  name : Option String := none
  schemaTitle : Option String := none
  payload : Nat := 0
deriving DecidableEq

/-- `(t as any).name ?? (t as any).schema?.title` (nullish coalescing). -/
def effToolName (t : ToolRec) : Option String :=
  match t.name with
  | some s => some s
  | none => t.schemaTitle

/-- Whether the dedup pass treats the tool as named (truthy name). -/
def isNamedTool (t : ToolRec) : Bool := optTruthy (effToolName t)

/-- `seenNames.get(...)` on the assoc-list model of the `Map`. -/
def seenLookup (seen : List (String × Nat)) (k : String) : Option Nat :=
  (seen.find? (fun e => e.1 = k)).map Prod.snd

/-- The dedup loop of `createAgentCoreNode`: named tools whose name was
seen replace the earlier occurrence in place (last wins); new names are
registered at the current position; unnamed (falsy-named) tools are pushed
as-is. -/
def dedupToolsAux : List ToolRec → List ToolRec → List (String × Nat) → List ToolRec
  | [], acc, _ => acc
  | t :: ts, acc, seen =>
    match effToolName t with
    | some nm =>
      if nm ≠ "" then
        match seenLookup seen nm with
        | some idx => dedupToolsAux ts (acc.set idx t) seen
        | none => dedupToolsAux ts (acc ++ [t]) ((nm, acc.length) :: seen)
      else dedupToolsAux ts (acc ++ [t]) seen
    | none => dedupToolsAux ts (acc ++ [t]) seen

/-- The deduplicated tool list the model is bound to. -/
def dedupTools (ts : List ToolRec) : List ToolRec := dedupToolsAux ts [] []

/-- The specification-level description of the dedup pass, stated directly
from the claim: the first occurrence of each truthy name holds the last
tool carrying that name, later occurrences of the name are dropped, and
falsy-named tools are kept as-is. -/
def specDedup : List ToolRec → List ToolRec
  | [] => []
  | t :: ts =>
    if isNamedTool t then
      ((t :: ts).filter (fun u => effToolName u = effToolName t)).getLastD t ::
        specDedup (ts.filter (fun u => effToolName u ≠ effToolName t))
    else t :: specDedup ts
termination_by l => l.length
decreasing_by
  · simp only [List.length_cons]
    exact Nat.lt_succ_of_le (List.length_filter_le _ _)
  · simp

/-- Last-wins override used to state the dedup invariant: the value a
committed slot will hold once the remaining tools have been processed. -/
def toolPatch (rest : List ToolRec) (t : ToolRec) : ToolRec :=
  if isNamedTool t ∧ rest.any (fun u => effToolName u = effToolName t) then
    (rest.filter (fun u => effToolName u = effToolName t)).getLastD t
  else t

/-- Remove the tools whose (truthy) name is already registered in the
seen-map. -/
def dropSeen (seen : List (String × Nat)) (rest : List ToolRec) : List ToolRec :=
  rest.filter (fun u =>
    match effToolName u with
    | some nm => if nm ≠ "" ∧ (seenLookup seen nm).isSome then false else true
    | none => true)

/-! ## Concrete example inputs used by closed theorems -/

/-- The message history of the contextSummarize regression test
(src/nodes/contextSummarize.test.ts). -/
def sumTestMsgs : List Msg :=
  [ { role := "user", content := Content.str "hello" },
    { role := "assistant", content := Content.str "calling tool"
      tool_calls := some [{ id := some "call_1"
                            fnName := some "search_in_knowledgebase"
                            fnArgs := some (ArgVal.str "q") }] },
    { role := "tool", name := some "search_in_knowledgebase"
      tool_call_id := some "call_1"
      content := Content.str "RAW_TOOL_PAYLOAD: result A, result B" } ]

/-- The state of the contextSummarize regression test: one compressible
tool message and one live `toolHistory` entry with execution id
`exec_test_1`. -/
def sumTestState : SState :=
  { messages := sumTestMsgs
    toolHistory := [{ executionId := "exec_test_1"
                      toolName := "search_in_knowledgebase"
                      output := "RAW_TOOL_PAYLOAD: result A, result B" }] }

/-- An assistant message carrying a single tool call with the given id. -/
def asstWith (i : String) : Msg :=
  { role := "assistant", tool_calls := some [{ id := some i }] }

/-- The counterexample history for the id-repair claim: two assistant
messages sharing id `x`, then a plain assistant message, then a tool
message referencing `x`. -/
def cexMsgs : List Msg :=
  [ asstWith "x", asstWith "x",
    { role := "assistant", content := Content.str "done" },
    { role := "tool", tool_call_id := some "x" } ]

/-- A reasoning engine that always requests one more tool call. -/
def loopEngine : List Msg → Msg := fun _ =>
  { role := "assistant"
    tool_calls := some [{ id := some "c", fnName := some "t"
                          fnArgs := some (ArgVal.str "a") }] }

/-- The initial state of the loop witness run. -/
def loopInit : LState :=
  { messages := [{ role := "user", content := Content.str "hi" }] }

/-- A two-record pending-approval state (mirroring the toolApprovals unit
tests). -/
def apprState : AState :=
  { pendingApprovals :=
      [ { id := "approval_1", toolCallId := "call_1", toolName := "dangerous_action"
          args := "args1" },
        { id := "approval_2", toolCallId := "call_2", toolName := "safe_action" } ] }

/- ======================================================================
   Theorems
   ====================================================================== -/

/-! ### List/string helper lemmas -/

theorem getLastD_cons_eq {α : Type} (a d : α) (l : List α) :
    List.getLastD (a :: l) d = l.getLastD a := by
  cases l with
  | nil => rfl
  | cons b t => simp [List.getLastD]

theorem asciiUnits_append (l1 l2 : List Char) :
    asciiUnits (l1 ++ l2) = asciiUnits l1 + asciiUnits l2 := by
  simp [asciiUnits, List.filter_append]

theorem nonAsciiUnits_append (l1 l2 : List Char) :
    nonAsciiUnits (l1 ++ l2) = nonAsciiUnits l1 + nonAsciiUnits l2 := by
  simp [nonAsciiUnits, List.filter_append]

theorem string_ne_empty_length {s : String} (h : s ≠ "") : s.length ≠ 0 := by
  cases s with
  | mk data =>
    cases data with
    | nil => simp at h
    | cons a l => simp [String.length]

theorem countApproxTokens_le_append (s t : String) :
    countApproxTokens s ≤ countApproxTokens (s ++ t) := by
  by_cases hs : s = ""
  · simp [hs, countApproxTokens]
  · have hst : s ++ t ≠ "" := by
      intro h
      have := congrArg String.length h
      simp [String.length_append] at this
      exact string_ne_empty_length hs this.1
    simp only [countApproxTokens, if_neg hs, if_neg hst]
    have htl : (s ++ t).toList = s.toList ++ t.toList := by simp [String.toList]
    rw [htl, asciiUnits_append, nonAsciiUnits_append]
    exact Nat.div_le_div_right (by omega)

theorem joinNl_append_singleton (xs : List String) (y : String) (h : xs ≠ []) :
    joinNl (xs ++ [y]) = joinNl xs ++ ("\n" ++ y) := by
  induction xs with
  | nil => exact absurd rfl h
  | cons x rest ih =>
    cases rest with
    | nil => simp [joinNl, String.append_assoc]
    | cons x2 r2 =>
      have hih : joinNl ((x2 :: r2) ++ [y]) = joinNl (x2 :: r2) ++ ("\n" ++ y) :=
        ih (by simp)
      simp only [List.cons_append, joinNl, List.append_eq] at hih ⊢
      rw [hih]
      simp [String.append_assoc]

/-! ### C9 — message token estimate monotonicity -/

/-- Claim C9: for every message list `ms` and message `m`,
`countMessagesTokens (ms ++ [m]) ≥ countMessagesTokens ms`: the estimate is
monotonically non-decreasing under appending, and every estimate is a
non-negative integer. -/
theorem C9_countMessagesTokens_monotone (ms : List Msg) (m : Msg) :
    countMessagesTokens ms ≤ countMessagesTokens (ms ++ [m]) ∧
    0 ≤ countMessagesTokens ms := by
  refine ⟨?_, Nat.zero_le _⟩
  cases hms : ms with
  | nil => simp [countMessagesTokens]
  | cons m0 rest =>
    have hne : (m0 :: rest) ≠ [] := by simp
    have hne2 : ((m0 :: rest) ++ [m]) ≠ [] := by simp
    simp only [countMessagesTokens, if_neg hne, if_neg hne2]
    have hmapne : (m0 :: rest).map extractMessageText ≠ [] := by simp
    rw [List.map_append]
    have : ((m0 :: rest).map extractMessageText ++ [m].map extractMessageText) =
        ((m0 :: rest).map extractMessageText ++ [extractMessageText m]) := by simp
    rw [this, joinNl_append_singleton _ _ hmapne]
    have h1 := countApproxTokens_le_append
      (joinNl ((m0 :: rest).map extractMessageText)) ("\n" ++ extractMessageText m)
    have h2 : (m0 :: rest).length * 4 ≤ ((m0 :: rest) ++ [m]).length * 4 := by
      simp [List.length_append]
    omega

/-! ### C8 — usage normalization -/

/-- Claim C8: `normalizeUsage` on `prompt_tokens = 10, completion_tokens = 5`
yields prompt 10, completion 5, total 15 with all detail fields zero; it is
total on every input, absent usage yields `undefined`, and malformed numeric
fields coerce to 0. -/
theorem C8_normalizeUsage :
    (normalizeUsage (some { prompt_tokens := JSVal.val true (JNum.int 10)
                            completion_tokens := JSVal.val true (JNum.int 5) }) =
      some { prompt_tokens := 10, completion_tokens := 5, total_tokens := 15
             prompt_tokens_details := { cached_tokens := 0, audio_tokens := 0 }
             completion_tokens_details :=
               { reasoning_tokens := 0, audio_tokens := 0
                 accepted_prediction_tokens := 0, rejected_prediction_tokens := 0 }
             raw := { prompt_tokens := JSVal.val true (JNum.int 10)
                      completion_tokens := JSVal.val true (JNum.int 5) } }) ∧
    normalizeUsage none = none ∧
    (∀ r : RawUsage, (normalizeUsage (some r)).isSome = true) ∧
    ((normalizeUsage (some { prompt_tokens := JSVal.val true JNum.nan
                             completion_tokens := JSVal.val true JNum.negInf })).map
      (fun n => (n.prompt_tokens, n.completion_tokens, n.total_tokens)) = some (0, 0, 0)) := by
  refine ⟨rfl, rfl, fun r => rfl, rfl⟩

/-! ### C1 — snapshot round-trip (spec-modelled) -/

/-- Claim C1: `restoreSnapshot (captureSnapshot s)` preserves the durable
fields `messages`, `toolCallCount`, `toolHistory`, `summaries`,
`pendingApprovals` exactly; only internal-key or non-serializable ctx
entries are dropped; and the restored state carries the
`__restoredFromSnapshot` marker. -/
theorem C1_snapshot_roundtrip (createdAt : String) (tag : Option String)
    (hint : Option RuntimeHint) (s : AState) :
    let r := restoreSnapshot none true (captureSnapshot createdAt tag hint s)
    r.messages = s.messages ∧
    r.toolCallCount = s.toolCallCount ∧
    r.toolHistory = s.toolHistory ∧
    r.toolHistoryArchived = s.toolHistoryArchived ∧
    r.summaries = s.summaries ∧
    r.pendingApprovals = s.pendingApprovals ∧
    r.ctx = s.ctx.filter (fun e => ¬ internalCtxKey e.1 ∧ serializableVal e.2) ++
      [("__restoredFromSnapshot", CtxVal.flag true)] ∧
    ctxGet r.ctx "__restoredFromSnapshot" = some (CtxVal.flag true) := by
  intro r
  have hmem : ∀ e ∈ s.ctx.filter (fun e => ¬ internalCtxKey e.1 ∧ serializableVal e.2),
      e.1 ≠ "__restoredFromSnapshot" := by
    intro e he heq
    have hkeep := List.of_mem_filter he
    simp only [decide_eq_true_eq] at hkeep
    rw [heq] at hkeep
    exact hkeep.1 rfl
  have hany : (s.ctx.filter (fun e => ¬ internalCtxKey e.1 ∧ serializableVal e.2)).any
      (fun e => e.1 = "__restoredFromSnapshot") = false := by
    rw [List.any_eq_false]
    intro e he
    simpa using hmem e he
  have hctx : r.ctx = s.ctx.filter (fun e => ¬ internalCtxKey e.1 ∧ serializableVal e.2) ++
      [("__restoredFromSnapshot", CtxVal.flag true)] := by
    have hred : r.ctx = ctxSet
        (s.ctx.filter (fun e => ¬ internalCtxKey e.1 ∧ serializableVal e.2))
        "__restoredFromSnapshot" (CtxVal.flag true) := rfl
    rw [hred]
    unfold ctxSet
    rw [hany]
    simp
  refine ⟨rfl, rfl, rfl, rfl, rfl, rfl, hctx, ?_⟩
  rw [hctx]
  unfold ctxGet
  have hnone : (s.ctx.filter (fun e => ¬ internalCtxKey e.1 ∧ serializableVal e.2)).find?
      (fun e => e.1 = "__restoredFromSnapshot") = none := by
    rw [List.find?_eq_none]
    intro e he
    simpa using hmem e he
  rw [List.find?_append, hnone]
  rfl

/-! ### C4 — summarization refusal frame condition -/

/-- Claim C4: when the history contains no uncompressed tool-output
message, the summarization node returns no state change (messages,
summaries, toolHistory, toolCallCount all unchanged); and no summarization
pass ever changes `toolCallCount`. -/
theorem C4_summarize_refusal (enabled : Bool) (outcome : Option String)
    (now : Nat) (s : SState)
    (h : compressibleMessages s.messages = []) :
    applySDelta s (contextSummarizeNode enabled outcome now s) = s ∧
    (∀ (e : Bool) (o : Option String) (n : Nat) (s2 : SState),
      (applySDelta s2 (contextSummarizeNode e o n s2)).toolCallCount =
        s2.toolCallCount) := by
  constructor
  · unfold contextSummarizeNode
    by_cases he : enabled
    · simp only [he]
      rw [if_neg (by simp), if_pos h]
      rfl
    · simp only [he]
      rw [if_pos (by simp)]
      rfl
  · intro e o n s2
    rfl

/-- Witness for C4 at a concrete state with no compressible tool message. -/
theorem C4_summarize_refusal_witness :
    compressibleMessages ([{ role := "user", content := Content.str "hi" }] : List Msg) = [] ∧
    applySDelta { messages := [{ role := "user", content := Content.str "hi" }] }
      (contextSummarizeNode true (some "S") 3
        { messages := [{ role := "user", content := Content.str "hi" }] }) =
      { messages := [{ role := "user", content := Content.str "hi" }] } :=
  ⟨rfl, (C4_summarize_refusal true (some "S") 3
    { messages := [{ role := "user", content := Content.str "hi" }] } rfl).1⟩

/-! ### C6 — tool-history archiving (code bug) -/

/-- Claim C6 (code bug): on the regression-test state, a successful
summarization pass rewrites the history (the delta carries new messages)
but leaves `toolHistory` untouched and `toolHistoryArchived` empty — the
node never moves the replaced entries into the archive, contradicting its
own regression test, which asserts the entry is archived under
`exec_test_1` and the live history cleared. -/
theorem C6_archiving_missing :
    compressibleMessages sumTestState.messages ≠ [] ∧
    (contextSummarizeNode true (some "SUM") 7 sumTestState).messages.isSome = true ∧
    (applySDelta sumTestState (contextSummarizeNode true (some "SUM") 7 sumTestState)).toolHistory =
      sumTestState.toolHistory ∧
    (applySDelta sumTestState (contextSummarizeNode true (some "SUM") 7 sumTestState)).toolHistoryArchived = [] := by
  refine ⟨?_, rfl, rfl, rfl⟩
  decide

/-! ### ctx bag lemmas -/

theorem find?_mapSet (c : CtxBag) (k : String) (v : CtxVal)
    (h : c.any (fun e => e.1 = k) = true) :
    (c.map (fun e => if e.1 = k then (k, v) else e)).find? (fun e => e.1 = k) =
      some (k, v) := by
  induction c with
  | nil => simp at h
  | cons e rest ih =>
    by_cases he : e.1 = k
    · simp [he, List.find?_cons_of_pos]
    · have h2 : rest.any (fun e => e.1 = k) = true := by
        simpa [List.any_cons, he] using h
      simpa [he, List.find?_cons_of_neg] using ih h2

theorem ctxGet_ctxSet_self (c : CtxBag) (k : String) (v : CtxVal) :
    ctxGet (ctxSet c k v) k = some v := by
  unfold ctxGet ctxSet
  by_cases h : c.any (fun e => e.1 = k) = true
  · rw [if_pos h, find?_mapSet c k v h]
    rfl
  · rw [if_neg h]
    rw [Bool.not_eq_true] at h
    rw [List.any_eq_false] at h
    have hnone : c.find? (fun e => e.1 = k) = none := by
      rw [List.find?_eq_none]
      intro e he
      simpa using h e he
    rw [List.find?_append, hnone]
    simp

theorem find?_mapSet_ne (c : CtxBag) (k k' : String) (v : CtxVal) (h : k' ≠ k) :
    (c.map (fun e => if e.1 = k then (k, v) else e)).find? (fun e => e.1 = k') =
      c.find? (fun e => e.1 = k') := by
  induction c with
  | nil => rfl
  | cons e rest ih =>
    by_cases he : e.1 = k
    · rw [List.map_cons, if_pos he]
      rw [List.find?_cons_of_neg _ (by simpa using Ne.symm h),
        List.find?_cons_of_neg _ (by simp [he]; exact Ne.symm h)]
      exact ih
    · rw [List.map_cons, if_neg he]
      by_cases he2 : e.1 = k'
      · rw [List.find?_cons_of_pos _ (by simpa using he2),
          List.find?_cons_of_pos _ (by simpa using he2)]
      · rw [List.find?_cons_of_neg _ (by simpa using he2),
          List.find?_cons_of_neg _ (by simpa using he2)]
        exact ih

theorem ctxGet_ctxSet_ne (c : CtxBag) (k k' : String) (v : CtxVal) (h : k' ≠ k) :
    ctxGet (ctxSet c k v) k' = ctxGet c k' := by
  unfold ctxGet ctxSet
  by_cases ha : c.any (fun e => e.1 = k) = true
  · rw [if_pos ha, find?_mapSet_ne c k k' v h]
  · rw [if_neg ha, List.find?_append]
    cases hc : c.find? (fun e => e.1 = k') <;> simp [hc, Ne.symm h]

/-! ### C3 — approval resolution (spec-modelled) -/

theorem splitAtMatch_none_iff (pred : PendingApproval → Bool)
    (l : List PendingApproval) :
    splitAtMatch pred l = none ↔ ∀ p ∈ l, ¬ pred p = true := by
  induction l with
  | nil => simp [splitAtMatch]
  | cons p rest ih =>
    by_cases hp : pred p = true
    · simp [splitAtMatch, hp]
    · simp only [splitAtMatch, if_neg hp]
      constructor
      · intro h q hq
        rw [Option.map_eq_none'] at h
        rcases List.mem_cons.mp hq with hq | hq
        · subst hq; exact hp
        · exact (ih.mp h) q hq
      · intro h
        rw [Option.map_eq_none']
        exact ih.mpr (fun q hq => h q (List.mem_cons_of_mem _ hq))

theorem splitAtMatch_some (pred : PendingApproval → Bool)
    (l pre post : List PendingApproval) (p : PendingApproval)
    (h : splitAtMatch pred l = some (pre, p, post)) :
    l = pre ++ p :: post ∧ pred p = true := by
  induction l generalizing pre post p with
  | nil => simp [splitAtMatch] at h
  | cons q rest ih =>
    by_cases hq : pred q = true
    · simp only [splitAtMatch, if_pos hq, Option.some.injEq, Prod.mk.injEq] at h
      obtain ⟨h1, h2, h3⟩ := h
      subst h1; subst h2; subst h3
      exact ⟨rfl, hq⟩
    · simp only [splitAtMatch, if_neg hq] at h
      rw [Option.map_eq_some'] at h
      obtain ⟨⟨pre2, p2, post2⟩, hr, heq⟩ := h
      simp only [Prod.mk.injEq] at heq
      obtain ⟨h1, h2, h3⟩ := heq
      obtain ⟨hl, hp⟩ := ih _ _ _ hr
      subst h1; subst h2; subst h3
      exact ⟨by simp [hl], hp⟩

/-- Claim C3: `resolveToolApprovalState` fails with "not found" exactly when
no record matches the given id by its own id nor (as fallback) by its
tool-call id; fails with "already completed" when the matched record is not
pending; and otherwise returns a new state in which exactly that record is
decided (approved/rejected with decision metadata), all other records
unchanged, and the `__resumeStage = "tools"` ctx signal set. -/
theorem C3_resolveToolApproval (now : String) (state : AState)
    (res : ToolApprovalResolution) :
    (resolveToolApprovalState now state res = Except.error "Pending approval not found" ↔
      ∀ p ∈ state.pendingApprovals, p.id ≠ res.id ∧ p.toolCallId ≠ res.id) ∧
    (∀ pre p post,
      matchApproval state.pendingApprovals res.id = some (pre, p, post) →
      p.status ≠ "pending" →
      resolveToolApprovalState now state res =
        Except.error "Tool approval already completed") ∧
    (∀ pre p post,
      matchApproval state.pendingApprovals res.id = some (pre, p, post) →
      p.status = "pending" →
      state.pendingApprovals = pre ++ p :: post ∧
      (decideApproval now res p).status =
        (if res.approved then "approved" else "rejected") ∧
      resolveToolApprovalState now state res = Except.ok
        { state with
          pendingApprovals := pre ++ decideApproval now res p :: post
          ctx := ctxSet
            (ctxSet state.ctx "__resumeStage" (CtxVal.str "tools"))
            "__approvalResolved"
            (CtxVal.resolvedInfo p.id (decideApproval now res p).status) } ∧
      (∀ s2, resolveToolApprovalState now state res = Except.ok s2 →
        ctxGet s2.ctx "__resumeStage" = some (CtxVal.str "tools"))) := by
  have hsome : ∀ pre p post,
      matchApproval state.pendingApprovals res.id = some (pre, p, post) →
      resolveToolApprovalState now state res =
        (if p.status ≠ "pending" then
          Except.error "Tool approval already completed"
        else Except.ok
          { state with
            pendingApprovals := pre ++ decideApproval now res p :: post
            ctx := ctxSet
              (ctxSet state.ctx "__resumeStage" (CtxVal.str "tools"))
              "__approvalResolved"
              (CtxVal.resolvedInfo p.id (decideApproval now res p).status) }) := by
    intro pre p post hm
    unfold resolveToolApprovalState
    rw [hm]
  have hdec : ∀ pre p post,
      matchApproval state.pendingApprovals res.id = some (pre, p, post) →
      state.pendingApprovals = pre ++ p :: post := by
    intro pre p post hm
    unfold matchApproval at hm
    cases h1 : splitAtMatch (fun q => q.id = res.id) state.pendingApprovals with
    | some r =>
      rw [h1] at hm
      simp only [Option.some.injEq] at hm
      exact (splitAtMatch_some _ _ _ _ _ (hm ▸ h1)).1
    | none =>
      rw [h1] at hm
      simp only at hm
      exact (splitAtMatch_some _ _ _ _ _ hm).1
  refine ⟨?_, ?_, ?_⟩
  · constructor
    · intro herr
      cases hm : matchApproval state.pendingApprovals res.id with
      | none =>
        unfold matchApproval at hm
        cases h1 : splitAtMatch (fun p => p.id = res.id) state.pendingApprovals with
        | some r => rw [h1] at hm; simp at hm
        | none =>
          rw [h1] at hm
          simp only at hm
          intro p hp
          have ha := (splitAtMatch_none_iff _ _).mp h1 p hp
          have hb := (splitAtMatch_none_iff _ _).mp hm p hp
          simp only [decide_eq_true_eq] at ha hb
          exact ⟨ha, hb⟩
      | some r =>
        obtain ⟨pre, p, post⟩ := r
        exfalso
        rw [hsome pre p post hm] at herr
        by_cases hs : p.status ≠ "pending"
        · rw [if_pos hs] at herr
          injection herr with hmsg
          exact absurd hmsg (by decide)
        · rw [if_neg hs] at herr
          exact Except.noConfusion herr
    · intro hall
      have hm : matchApproval state.pendingApprovals res.id = none := by
        unfold matchApproval
        have h1 : splitAtMatch (fun p => p.id = res.id) state.pendingApprovals = none :=
          (splitAtMatch_none_iff _ _).mpr
            (fun p hp => by simpa using (hall p hp).1)
        rw [h1]
        exact (splitAtMatch_none_iff _ _).mpr
          (fun p hp => by simpa using (hall p hp).2)
      unfold resolveToolApprovalState
      rw [hm]
  · intro pre p post hm hs
    rw [hsome pre p post hm, if_pos hs]
  · intro pre p post hm hs
    have hok : resolveToolApprovalState now state res = Except.ok
        { state with
          pendingApprovals := pre ++ decideApproval now res p :: post
          ctx := ctxSet
            (ctxSet state.ctx "__resumeStage" (CtxVal.str "tools"))
            "__approvalResolved"
            (CtxVal.resolvedInfo p.id (decideApproval now res p).status) } := by
      rw [hsome pre p post hm, if_neg (by simp [hs])]
    refine ⟨hdec pre p post hm, by simp [decideApproval], hok, ?_⟩
    intro s2 h2
    rw [hok] at h2
    injection h2 with h2
    rw [← h2]
    show ctxGet (ctxSet (ctxSet state.ctx "__resumeStage" (CtxVal.str "tools"))
      "__approvalResolved" (CtxVal.resolvedInfo p.id (decideApproval now res p).status))
      "__resumeStage" = some (CtxVal.str "tools")
    rw [ctxGet_ctxSet_ne _ _ _ _ (by decide), ctxGet_ctxSet_self]

/-- Witness for C3 on the concrete two-record approval state: resolving
`approval_1` succeeds with the record approved, resolving an unknown id is
"not found". -/
theorem C3_resolveToolApproval_witness :
    (resolveToolApprovalState "T" apprState { id := "approval_1", approved := true } =
      Except.ok
        { apprState with
          pendingApprovals :=
            [] ++ decideApproval "T" { id := "approval_1", approved := true }
              { id := "approval_1", toolCallId := "call_1"
                toolName := "dangerous_action", args := "args1" } ::
              [{ id := "approval_2", toolCallId := "call_2", toolName := "safe_action" }]
          ctx := ctxSet
            (ctxSet apprState.ctx "__resumeStage" (CtxVal.str "tools"))
            "__approvalResolved" (CtxVal.resolvedInfo "approval_1" "approved") }) ∧
    (resolveToolApprovalState "T" apprState { id := "unknown_id", approved := true } =
      Except.error "Pending approval not found") := by
  constructor
  · have h := (C3_resolveToolApproval "T" apprState
      { id := "approval_1", approved := true }).2.2
      ([] : List PendingApproval)
      { id := "approval_1", toolCallId := "call_1"
        toolName := "dangerous_action", args := "args1" }
      [{ id := "approval_2", toolCallId := "call_2", toolName := "safe_action" }]
      (by decide) (by decide)
    exact h.2.2.1
  · exact ((C3_resolveToolApproval "T" apprState
      { id := "unknown_id", approved := true }).1).mpr (by decide)

/-! ### C5 — summarization rewrite postconditions -/

theorem validateAux_eq_asst_clear (pending : List String) (m0 : Msg)
    (rest : List Msg) (ha : m0.role = "assistant") (htc : msgToolCalls m0 = []) :
    validateAux pending (m0 :: rest) = m0 :: validateAux [] rest := by
  simp only [validateAux, if_pos ha, if_pos htc]

theorem validateAux_eq_asst_reg (pending : List String) (m0 : Msg)
    (rest : List Msg) (ha : m0.role = "assistant") (htc : msgToolCalls m0 ≠ []) :
    validateAux pending (m0 :: rest) =
      m0 :: validateAux (registerIds pending (msgToolCalls m0)) rest := by
  simp only [validateAux, if_pos ha, if_neg htc]

theorem validateAux_eq_tool_kept (pending : List String) (m0 : Msg)
    (rest : List Msg) (id0 : String) (ha : ¬ m0.role = "assistant")
    (ht : m0.role = "tool") (hid : m0.tool_call_id = some id0)
    (hin : id0 ≠ "" ∧ id0 ∈ pending) :
    validateAux pending (m0 :: rest) =
      m0 :: validateAux (pendingDelete pending id0) rest := by
  simp only [validateAux, if_neg ha, if_pos ht, hid, if_pos hin]

theorem validateAux_eq_tool_dropped (pending : List String) (m0 : Msg)
    (rest : List Msg) (id0 : String) (ha : ¬ m0.role = "assistant")
    (ht : m0.role = "tool") (hid : m0.tool_call_id = some id0)
    (hin : ¬ (id0 ≠ "" ∧ id0 ∈ pending)) :
    validateAux pending (m0 :: rest) = validateAux pending rest := by
  simp only [validateAux, if_neg ha, if_pos ht, hid, if_neg hin]

theorem validateAux_eq_tool_noid (pending : List String) (m0 : Msg)
    (rest : List Msg) (ha : ¬ m0.role = "assistant")
    (ht : m0.role = "tool") (hid : m0.tool_call_id = none) :
    validateAux pending (m0 :: rest) = validateAux pending rest := by
  simp only [validateAux, if_neg ha, if_pos ht, hid]

theorem validateAux_eq_other (pending : List String) (m0 : Msg)
    (rest : List Msg) (ha : ¬ m0.role = "assistant") (ht : ¬ m0.role = "tool") :
    validateAux pending (m0 :: rest) = m0 :: validateAux pending rest := by
  simp only [validateAux, if_neg ha, if_neg ht]

theorem validateAux_mem (ms : List Msg) (pending : List String) (m : Msg)
    (h : m ∈ validateAux pending ms) : m ∈ ms := by
  induction ms generalizing pending with
  | nil => simpa [validateAux] using h
  | cons m0 rest ih =>
    by_cases ha : m0.role = "assistant"
    · by_cases htc : msgToolCalls m0 = []
      · rw [validateAux_eq_asst_clear pending m0 rest ha htc] at h
        rcases List.mem_cons.mp h with h | h
        · exact h ▸ List.mem_cons_self _ _
        · exact List.mem_cons_of_mem _ (ih _ h)
      · rw [validateAux_eq_asst_reg pending m0 rest ha htc] at h
        rcases List.mem_cons.mp h with h | h
        · exact h ▸ List.mem_cons_self _ _
        · exact List.mem_cons_of_mem _ (ih _ h)
    · by_cases ht : m0.role = "tool"
      · cases hid : m0.tool_call_id with
        | some id0 =>
          by_cases hin : id0 ≠ "" ∧ id0 ∈ pending
          · rw [validateAux_eq_tool_kept pending m0 rest id0 ha ht hid hin] at h
            rcases List.mem_cons.mp h with h | h
            · exact h ▸ List.mem_cons_self _ _
            · exact List.mem_cons_of_mem _ (ih _ h)
          · rw [validateAux_eq_tool_dropped pending m0 rest id0 ha ht hid hin] at h
            exact List.mem_cons_of_mem _ (ih _ h)
        | none =>
          rw [validateAux_eq_tool_noid pending m0 rest ha ht hid] at h
          exact List.mem_cons_of_mem _ (ih _ h)
      · rw [validateAux_eq_other pending m0 rest ha ht] at h
        rcases List.mem_cons.mp h with h | h
        · exact h ▸ List.mem_cons_self _ _
        · exact List.mem_cons_of_mem _ (ih _ h)

theorem summarizeRewrite_tool_content (ms : List Msg) (m : Msg)
    (hm : m ∈ summarizeRewrite ms) (hrole : m.role = "tool") :
    m.content = Content.str "SUMMARIZED" := by
  unfold summarizeRewrite at hm
  obtain ⟨a, _, hfa⟩ := List.mem_filterMap.mp hm
  by_cases hat : a.role = "tool"
  · cases hid : a.tool_call_id with
    | some id0 =>
      by_cases hin : id0 ≠ "" ∧ id0 ∈ liveAssistantIds ms
      · by_cases hs : a.content = Content.str "SUMMARIZED"
        · have : (some a : Option Msg) = some m := by
            simpa only [if_pos hat, hid, if_pos hin, if_pos hs] using hfa
          injection this with this
          rw [← this]
          exact hs
        · have : (some { a with content := Content.str "SUMMARIZED" } : Option Msg) =
              some m := by
            simpa only [if_pos hat, hid, if_pos hin, if_neg hs] using hfa
          injection this with this
          rw [← this]
      · have : (none : Option Msg) = some m := by
          simpa only [if_pos hat, hid, if_neg hin] using hfa
        exact Option.noConfusion this
    | none =>
      have : (none : Option Msg) = some m := by
        simpa only [if_pos hat, hid] using hfa
      exact Option.noConfusion this
  · have : (some a : Option Msg) = some m := by
      simpa only [if_neg hat] using hfa
    injection this with this
    rw [← this] at hrole
    exact absurd hrole hat

theorem foldl_pendingInsert_sub (l : List String) (pending : List String)
    (id : String) (h : id ∈ l.foldl pendingInsert pending) :
    id ∈ pending ∨ id ∈ l := by
  induction l generalizing pending with
  | nil => exact Or.inl h
  | cons x xs ih =>
    rcases ih (pendingInsert pending x) h with h2 | h2
    · unfold pendingInsert at h2
      by_cases hx : x ∈ pending
      · rw [if_pos hx] at h2
        exact Or.inl h2
      · rw [if_neg hx] at h2
        rcases List.mem_append.mp h2 with h3 | h3
        · exact Or.inl h3
        · right
          simp only [List.mem_singleton] at h3
          rw [h3]
          exact List.mem_cons_self _ _
    · exact Or.inr (List.mem_cons_of_mem _ h2)

theorem registerIds_sub (pending : List String) (tcs : List ToolCall)
    (id : String) (h : id ∈ registerIds pending tcs) :
    id ∈ pending ∨ id ∈ truthyIds tcs :=
  foldl_pendingInsert_sub _ _ _ h

/-- Soundness of `validateMessageSequence`: every tool message the walk
keeps carries a tool-call id that is either pending on entry or emitted by
an earlier assistant message of the output. -/
theorem validateAux_tool_sound (ms : List Msg) (pending : List String)
    (k : Nat) (m : Msg)
    (hk : (validateAux pending ms)[k]? = some m) (hrole : m.role = "tool") :
    ∃ id, m.tool_call_id = some id ∧
      (id ∈ pending ∨
        ∃ j, j < k ∧ ∃ mj, (validateAux pending ms)[j]? = some mj ∧
          mj.role = "assistant" ∧ id ∈ truthyIds (msgToolCalls mj)) := by
  induction ms generalizing pending k with
  | nil => simp [validateAux] at hk
  | cons m0 rest ih =>
    by_cases ha : m0.role = "assistant"
    · by_cases htc : msgToolCalls m0 = []
      · rw [validateAux_eq_asst_clear pending m0 rest ha htc] at hk ⊢
        cases k with
        | zero =>
          rw [List.getElem?_cons_zero] at hk
          injection hk with hk
          rw [← hk] at hrole
          rw [ha] at hrole
          exact absurd hrole (by decide)
        | succ j =>
          rw [List.getElem?_cons_succ] at hk
          obtain ⟨id, hid, hc⟩ := ih [] j hk
          refine ⟨id, hid, ?_⟩
          rcases hc with hc | ⟨j2, hj2, mj, hmj, hamj, hidin⟩
          · simp at hc
          · exact Or.inr ⟨j2 + 1, by omega,
              mj, by rw [List.getElem?_cons_succ]; exact hmj, hamj, hidin⟩
      · rw [validateAux_eq_asst_reg pending m0 rest ha htc] at hk ⊢
        cases k with
        | zero =>
          rw [List.getElem?_cons_zero] at hk
          injection hk with hk
          rw [← hk] at hrole
          rw [ha] at hrole
          exact absurd hrole (by decide)
        | succ j =>
          rw [List.getElem?_cons_succ] at hk
          obtain ⟨id, hid, hc⟩ := ih _ j hk
          refine ⟨id, hid, ?_⟩
          rcases hc with hc | ⟨j2, hj2, mj, hmj, hamj, hidin⟩
          · rcases registerIds_sub _ _ _ hc with hc2 | hc2
            · exact Or.inl hc2
            · exact Or.inr ⟨0, by omega, m0,
                List.getElem?_cons_zero, ha, hc2⟩
          · exact Or.inr ⟨j2 + 1, by omega,
              mj, by rw [List.getElem?_cons_succ]; exact hmj, hamj, hidin⟩
    · by_cases ht : m0.role = "tool"
      · cases hid0 : m0.tool_call_id with
        | some id0 =>
          by_cases hin : id0 ≠ "" ∧ id0 ∈ pending
          · rw [validateAux_eq_tool_kept pending m0 rest id0 ha ht hid0 hin] at hk ⊢
            cases k with
            | zero =>
              rw [List.getElem?_cons_zero] at hk
              injection hk with hk
              refine ⟨id0, by rw [← hk]; exact hid0, Or.inl hin.2⟩
            | succ j =>
              rw [List.getElem?_cons_succ] at hk
              obtain ⟨id, hid, hc⟩ := ih _ j hk
              refine ⟨id, hid, ?_⟩
              rcases hc with hc | ⟨j2, hj2, mj, hmj, hamj, hidin⟩
              · exact Or.inl (List.mem_of_mem_filter hc)
              · exact Or.inr ⟨j2 + 1, by omega,
                  mj, by rw [List.getElem?_cons_succ]; exact hmj, hamj, hidin⟩
          · rw [validateAux_eq_tool_dropped pending m0 rest id0 ha ht hid0 hin] at hk ⊢
            obtain ⟨id, hid, hc⟩ := ih _ k hk
            exact ⟨id, hid, hc⟩
        | none =>
          rw [validateAux_eq_tool_noid pending m0 rest ha ht hid0] at hk ⊢
          obtain ⟨id, hid, hc⟩ := ih _ k hk
          exact ⟨id, hid, hc⟩
      · rw [validateAux_eq_other pending m0 rest ha ht] at hk ⊢
        cases k with
        | zero =>
          rw [List.getElem?_cons_zero] at hk
          injection hk with hk
          rw [← hk] at hrole
          exact absurd hrole ht
        | succ j =>
          rw [List.getElem?_cons_succ] at hk
          obtain ⟨id, hid, hc⟩ := ih _ j hk
          refine ⟨id, hid, ?_⟩
          rcases hc with hc | ⟨j2, hj2, mj, hmj, hamj, hidin⟩
          · exact Or.inl hc
          · exact Or.inr ⟨j2 + 1, by omega,
              mj, by rw [List.getElem?_cons_succ]; exact hmj, hamj, hidin⟩

theorem summaryToolCallId_ne_empty (now : Nat) : summaryToolCallId now ≠ "" := by
  intro h
  have hlen := congrArg String.length h
  rw [summaryToolCallId, String.length_append] at hlen
  have h13 : ("call_summary_" : String).length = 13 := rfl
  have h0 : ("" : String).length = 0 := rfl
  omega

/-- Claim C5: after a successful summarization pass, every surviving tool
message from the input history has the fixed placeholder content; every
tool message of the result references a tool call emitted by a preceding
assistant message (no orphan remains); and the rewritten history ends with
the synthetic assistant compression call followed by the synthetic tool
message carrying the summary. -/
theorem C5_summarize_success (txt : String) (now : Nat) (s : SState)
    (hc : compressibleMessages s.messages ≠ []) :
    (contextSummarizeNode true (some txt) now s) =
      { messages := some (validateMessageSequence (summarizeRewrite s.messages) ++
          [assistantSummaryCall now, toolSummaryResponse now txt])
        summaries := some (s.summaries ++ [txt]) } ∧
    (∀ m ∈ validateMessageSequence (summarizeRewrite s.messages),
      m ∈ summarizeRewrite s.messages ∧
      (m.role = "tool" → m.content = Content.str "SUMMARIZED")) ∧
    (∀ (k : Nat) (m : Msg),
      (validateMessageSequence (summarizeRewrite s.messages) ++
        [assistantSummaryCall now, toolSummaryResponse now txt])[k]? = some m →
      m.role = "tool" →
      ∃ id, m.tool_call_id = some id ∧
        ∃ j, j < k ∧ ∃ mj,
          (validateMessageSequence (summarizeRewrite s.messages) ++
            [assistantSummaryCall now, toolSummaryResponse now txt])[j]? = some mj ∧
          mj.role = "assistant" ∧ id ∈ truthyIds (msgToolCalls mj)) ∧
    (validateMessageSequence (summarizeRewrite s.messages) ++
      [assistantSummaryCall now, toolSummaryResponse now txt]).getLast? =
      some (toolSummaryResponse now txt) ∧
    (validateMessageSequence (summarizeRewrite s.messages) ++
      [assistantSummaryCall now, toolSummaryResponse now txt])[
        (validateMessageSequence (summarizeRewrite s.messages) ++
          [assistantSummaryCall now, toolSummaryResponse now txt]).length - 2]? =
      some (assistantSummaryCall now) := by
  set validated := validateMessageSequence (summarizeRewrite s.messages) with hval
  refine ⟨?_, ?_, ?_, ?_, ?_⟩
  · unfold contextSummarizeNode
    rw [if_neg (by simp), if_neg (by simpa using hc)]
  · intro m hm
    have hmem : m ∈ summarizeRewrite s.messages := validateAux_mem _ _ _ hm
    exact ⟨hmem, fun hrole => summarizeRewrite_tool_content _ _ hmem hrole⟩
  · intro k m hk hrole
    by_cases hklen : k < validated.length
    · rw [List.getElem?_append, if_pos hklen] at hk
      obtain ⟨id, hid, hc2⟩ := validateAux_tool_sound _ [] k m hk hrole
      rcases hc2 with hc2 | ⟨j, hj, mj, hmj, hamj, hidin⟩
      · simp at hc2
      · refine ⟨id, hid, j, hj, mj, ?_, hamj, hidin⟩
        rw [List.getElem?_append, if_pos (by omega)]
        exact hmj
    · rw [List.getElem?_append, if_neg hklen] at hk
      push_neg at hklen
      rcases Nat.lt_or_ge (k - validated.length) 2 with hlt | hge
      · interval_cases h2 : (k - validated.length)
        · rw [List.getElem?_cons_zero] at hk
          injection hk with hk
          rw [← hk] at hrole
          rw [show (assistantSummaryCall now).role = "assistant" from rfl] at hrole
          exact absurd hrole (by decide)
        · rw [List.getElem?_cons_succ, List.getElem?_cons_zero] at hk
          injection hk with hk
          refine ⟨summaryToolCallId now, by rw [← hk]; rfl,
            validated.length, by omega, assistantSummaryCall now, ?_, rfl, ?_⟩
          · rw [List.getElem?_append, if_neg (by omega)]
            simp
          · simp [truthyIds, msgToolCalls, assistantSummaryCall,
              summaryToolCallId_ne_empty now]
      · exfalso
        have : ([assistantSummaryCall now, toolSummaryResponse now txt] :
            List Msg)[k - validated.length]? = none := by
          rw [List.getElem?_eq_none]
          simpa using hge
        rw [this] at hk
        exact Option.noConfusion hk
  · rw [List.getLast?_append_of_ne_nil _ (by simp)]
    rfl
  · rw [List.length_append]
    simp only [List.length_cons, List.length_nil]
    have hidx : validated.length + 2 - 2 = validated.length := by omega
    rw [hidx, List.getElem?_append, if_neg (by omega)]
    simp

/-- Witness for C5 on the regression-test state. -/
theorem C5_summarize_success_witness :
    compressibleMessages sumTestState.messages ≠ [] ∧
    (contextSummarizeNode true (some "SUM") 7 sumTestState) =
      { messages := some (validateMessageSequence (summarizeRewrite sumTestState.messages) ++
          [assistantSummaryCall 7, toolSummaryResponse 7 "SUM"])
        summaries := some (sumTestState.summaries ++ ["SUM"]) } :=
  ⟨by decide, (C5_summarize_success "SUM" 7 sumTestState (by decide)).1⟩

/-! ### C10 — tool deduplication -/

theorem toolPatch_cons_ne (u : ToolRec) (ts : List ToolRec) (t : ToolRec)
    (h : isNamedTool t = true → effToolName u ≠ effToolName t) :
    toolPatch (u :: ts) t = toolPatch ts t := by
  by_cases hn : isNamedTool t = true
  · have hne := h hn
    unfold toolPatch
    have hany : (u :: ts).any (fun v => decide (effToolName v = effToolName t)) =
        ts.any (fun v => decide (effToolName v = effToolName t)) := by
      simp [List.any_cons, hne]
    have hfil : (u :: ts).filter (fun v => decide (effToolName v = effToolName t)) =
        ts.filter (fun v => decide (effToolName v = effToolName t)) := by
      simp [List.filter_cons, hne]
    rw [hany, hfil]
  · unfold toolPatch
    rw [if_neg (by simp [hn]), if_neg (by simp [hn])]

theorem getLastD_filter_eq_toolPatch (ts : List ToolRec) (u : ToolRec)
    (hn : isNamedTool u = true) :
    (ts.filter (fun v => effToolName v = effToolName u)).getLastD u =
      toolPatch ts u := by
  unfold toolPatch
  by_cases ha : ts.any (fun v => decide (effToolName v = effToolName u)) = true
  · rw [if_pos ⟨hn, ha⟩]
  · rw [if_neg (by intro hc; exact ha hc.2)]
    have hnil : ts.filter (fun v => decide (effToolName v = effToolName u)) = [] := by
      rw [List.filter_eq_nil_iff]
      intro a hain hpa
      exact ha (List.any_eq_true.mpr ⟨a, hain, hpa⟩)
    rw [hnil]
    rfl

theorem toolPatch_cons_same (u : ToolRec) (ts : List ToolRec) (t : ToolRec)
    (hn : isNamedTool t = true) (heq : effToolName u = effToolName t) :
    toolPatch (u :: ts) t = toolPatch ts u := by
  have hnu : isNamedTool u = true := by
    unfold isNamedTool at hn ⊢
    rw [heq]
    exact hn
  have hpred : (fun v => decide (effToolName v = effToolName t)) =
      (fun v => decide (effToolName v = effToolName u)) := by
    funext v
    rw [heq]
  have hlhs : toolPatch (u :: ts) t =
      ((u :: ts).filter (fun v => effToolName v = effToolName t)).getLastD t := by
    unfold toolPatch
    rw [if_pos ⟨hn, by simp [List.any_cons, heq]⟩]
  rw [hlhs, List.filter_cons_of_pos (by simpa using heq), getLastD_cons_eq]
  rw [hpred]
  exact getLastD_filter_eq_toolPatch ts u hnu

theorem seenLookup_cons (seen : List (String × Nat)) (nm nm2 : String) (idx : Nat) :
    seenLookup ((nm, idx) :: seen) nm2 =
      if nm2 = nm then some idx else seenLookup seen nm2 := by
  unfold seenLookup
  by_cases h : nm2 = nm
  · rw [if_pos h]
    rw [List.find?_cons_of_pos _ (by simpa using h.symm)]
    rfl
  · rw [if_neg h]
    rw [List.find?_cons_of_neg _ (by simpa using fun hx => h hx.symm)]

theorem dropSeen_keeps (seen : List (String × Nat)) (v : ToolRec)
    (h : ∀ nm, effToolName v = some nm → nm ≠ "" →
      seenLookup seen nm = none) :
    (match effToolName v with
      | some nm => if nm ≠ "" ∧ (seenLookup seen nm).isSome then false else true
      | none => true) = true := by
  cases hv : effToolName v with
  | none => rfl
  | some nm =>
    show (if nm ≠ "" ∧ (seenLookup seen nm).isSome then false else true) = true
    by_cases hne : nm ≠ ""
    · rw [if_neg]
      intro hc
      rw [h nm hv hne] at hc
      exact Bool.noConfusion hc.2
    · rw [if_neg (fun hc => hne hc.1)]

theorem dropSeen_cons_dropped (seen : List (String × Nat)) (u : ToolRec)
    (ts : List ToolRec) (nm : String) (hname : effToolName u = some nm)
    (hne : nm ≠ "") (hin : (seenLookup seen nm).isSome = true) :
    dropSeen seen (u :: ts) = dropSeen seen ts := by
  unfold dropSeen
  rw [List.filter_cons_of_neg]
  simp only [hname]
  rw [if_pos ⟨hne, hin⟩]
  exact Bool.noConfusion

theorem dropSeen_cons_kept (seen : List (String × Nat)) (u : ToolRec)
    (ts : List ToolRec)
    (h : ∀ nm, effToolName u = some nm → nm ≠ "" → seenLookup seen nm = none) :
    dropSeen seen (u :: ts) = u :: dropSeen seen ts := by
  unfold dropSeen
  rw [List.filter_cons_of_pos]
  exact dropSeen_keeps seen u h

theorem dropSeen_extend (seen : List (String × Nat)) (nm : String) (idx : Nat)
    (ts : List ToolRec) (hne : nm ≠ "") :
    dropSeen ((nm, idx) :: seen) ts =
      (dropSeen seen ts).filter (fun v => effToolName v ≠ some nm) := by
  unfold dropSeen
  rw [List.filter_filter]
  apply List.filter_congr
  intro v _
  cases hv : effToolName v with
  | none =>
    show true = (decide (none ≠ some nm) && true)
    simp
  | some nm2 =>
    show (if nm2 ≠ "" ∧ (seenLookup ((nm, idx) :: seen) nm2).isSome then false else true) =
      (decide (some nm2 ≠ some nm) &&
        if nm2 ≠ "" ∧ (seenLookup seen nm2).isSome then false else true)
    rw [seenLookup_cons]
    by_cases h2 : nm2 = nm
    · rw [if_pos h2]
      rw [if_pos ⟨by rw [h2]; exact hne, rfl⟩]
      simp [h2]
    · rw [if_neg h2]
      by_cases h3 : nm2 ≠ "" ∧ (seenLookup seen nm2).isSome = true
      · rw [if_pos h3]
        simp
      · rw [if_neg h3]
        simp [h2]

theorem dropSeen_filter_same (seen : List (String × Nat)) (ts : List ToolRec)
    (nm : String) (hun : seenLookup seen nm = none) :
    (dropSeen seen ts).filter (fun v => effToolName v = some nm) =
      ts.filter (fun v => effToolName v = some nm) := by
  unfold dropSeen
  rw [List.filter_filter]
  apply List.filter_congr
  intro v _
  cases hv : effToolName v with
  | none =>
    show (decide ((none : Option String) = some nm) && true) =
      decide ((none : Option String) = some nm)
    simp
  | some nm2 =>
    show (decide (some nm2 = some nm) &&
        if nm2 ≠ "" ∧ (seenLookup seen nm2).isSome then false else true) =
      decide (some nm2 = some nm)
    by_cases h2 : nm2 = nm
    · subst h2
      rw [if_neg (by
        intro hc
        rw [hun] at hc
        exact Bool.noConfusion hc.2)]
      simp
    · simp [h2]

theorem specDedup_cons_named (u : ToolRec) (ts : List ToolRec)
    (hn : isNamedTool u = true) :
    specDedup (u :: ts) =
      (ts.filter (fun v => effToolName v = effToolName u)).getLastD u ::
        specDedup (ts.filter (fun v => effToolName v ≠ effToolName u)) := by
  rw [specDedup, if_pos hn, List.filter_cons_of_pos (by simp), getLastD_cons_eq]

theorem specDedup_cons_unnamed (u : ToolRec) (ts : List ToolRec)
    (hn : ¬ isNamedTool u = true) :
    specDedup (u :: ts) = u :: specDedup ts := by
  rw [specDedup, if_neg hn]

/-- The dedup loop with committed prefix `acc` and seen-map `seen` produces
the committed slots (patched last-wins by the remaining tools) followed by
the spec-level dedup of the unseen remainder. -/
theorem dedupToolsAux_spec (ts : List ToolRec) :
    ∀ (acc : List ToolRec) (seen : List (String × Nat)),
    (∀ nm idx, seenLookup seen nm = some idx →
      ∃ t, acc[idx]? = some t ∧ effToolName t = some nm ∧ nm ≠ "") →
    (∀ (i : Nat) (t : ToolRec) (nm : String), acc[i]? = some t →
      effToolName t = some nm → nm ≠ "" → seenLookup seen nm = some i) →
    dedupToolsAux ts acc seen =
      acc.map (toolPatch ts) ++ specDedup (dropSeen seen ts) := by
  induction ts with
  | nil =>
    intro acc seen _ _
    show acc = List.map (toolPatch []) acc ++ specDedup (dropSeen seen [])
    have hsd : specDedup (dropSeen seen []) = [] := by
      show specDedup [] = []
      simp [specDedup]
    have hid : List.map (toolPatch []) acc = acc := by
      conv_rhs => rw [← List.map_id acc]
      apply List.map_congr_left
      intro t _
      unfold toolPatch
      rw [if_neg (by intro hc; simpa using hc.2)]
      rfl
    rw [hsd, hid, List.append_nil]
  | cons u ts ih =>
    intro acc seen hInv1 hInv2
    have hlt_of_get : ∀ (l : List ToolRec) (i : Nat) (t : ToolRec),
        l[i]? = some t → i < l.length := by
      intro l i t ht
      by_contra hge
      rw [List.getElem?_eq_none (by omega)] at ht
      exact Option.noConfusion ht
    have happend_inv1 : ∀ nm idx, seenLookup seen nm = some idx →
        ∃ t, (acc ++ [u])[idx]? = some t ∧ effToolName t = some nm ∧ nm ≠ "" := by
      intro nm idx hl
      obtain ⟨t, ht, htn, htne⟩ := hInv1 nm idx hl
      refine ⟨t, ?_, htn, htne⟩
      rw [List.getElem?_append, if_pos (hlt_of_get acc idx t ht)]
      exact ht
    have hsingleton : ∀ (i : Nat) (t : ToolRec), ([u] : List ToolRec)[i]? = some t →
        i = 0 ∧ t = u := by
      intro i t ht
      cases i with
      | zero =>
        rw [List.getElem?_cons_zero] at ht
        injection ht with ht
        exact ⟨rfl, ht.symm⟩
      | succ j => simp at ht
    -- pointwise lemma: a committed slot is never renamed by a head whose
    -- name is not registered for that slot
    have hmap_ne : ∀ (hno : ∀ t2 ∈ acc, isNamedTool t2 = true →
        effToolName u ≠ effToolName t2),
        acc.map (toolPatch (u :: ts)) = acc.map (toolPatch ts) := by
      intro hno
      apply List.map_congr_left
      intro t2 ht2
      exact toolPatch_cons_ne u ts t2 (hno t2 ht2)
    cases hname : effToolName u with
    | none =>
      have hstep : dedupToolsAux (u :: ts) acc seen =
          dedupToolsAux ts (acc ++ [u]) seen := by
        simp only [dedupToolsAux, hname]
      have hInv2b : ∀ (i : Nat) (t : ToolRec) (nm2 : String),
          (acc ++ [u])[i]? = some t → effToolName t = some nm2 → nm2 ≠ "" →
          seenLookup seen nm2 = some i := by
        intro i t nm2 ht htn htne
        by_cases hi : i < acc.length
        · rw [List.getElem?_append, if_pos hi] at ht
          exact hInv2 i t nm2 ht htn htne
        · rw [List.getElem?_append, if_neg hi] at ht
          obtain ⟨_, htu⟩ := hsingleton _ _ ht
          rw [htu, hname] at htn
          exact Option.noConfusion htn
      rw [hstep, ih (acc ++ [u]) seen happend_inv1 hInv2b]
      have hnn : ¬ isNamedTool u = true := by
        simp [isNamedTool, hname, optTruthy]
      have hkept : dropSeen seen (u :: ts) = u :: dropSeen seen ts :=
        dropSeen_cons_kept seen u ts (by
          intro nm2 hu
          rw [hname] at hu
          exact absurd hu (by simp))
      rw [hkept, specDedup_cons_unnamed u _ hnn]
      rw [hmap_ne (by
        intro t2 _ hnt2 heq
        rw [hname] at heq
        cases hteff : effToolName t2 with
        | none =>
          unfold isNamedTool at hnt2
          rw [hteff] at hnt2
          simp [optTruthy] at hnt2
        | some x =>
          rw [hteff] at heq
          exact Option.noConfusion heq)]
      rw [List.map_append]
      have hpu : toolPatch ts u = u := by
        unfold toolPatch
        rw [if_neg (fun hc => hnn hc.1)]
      simp [hpu]
    | some nm =>
      by_cases hne : nm ≠ ""
      · cases hlook : seenLookup seen nm with
        | some idx =>
          have hidxlt : idx < acc.length := by
            obtain ⟨t, ht, _, _⟩ := hInv1 nm idx hlook
            exact hlt_of_get acc idx t ht
          have hstep : dedupToolsAux (u :: ts) acc seen =
              dedupToolsAux ts (acc.set idx u) seen := by
            simp only [dedupToolsAux, hname]
            rw [if_pos hne]
            simp only [hlook]
          have hInv1c : ∀ nm2 idx2, seenLookup seen nm2 = some idx2 →
              ∃ t, (acc.set idx u)[idx2]? = some t ∧
                effToolName t = some nm2 ∧ nm2 ≠ "" := by
            intro nm2 idx2 hl2
            by_cases hidx2 : idx2 = idx
            · subst hidx2
              obtain ⟨t2, ht2, htn2, htne2⟩ := hInv1 nm2 idx2 hl2
              obtain ⟨t1, ht1, htn1, _⟩ := hInv1 nm idx2 hlook
              rw [ht1] at ht2
              injection ht2 with ht2
              have hnm2 : nm2 = nm := by
                rw [ht2] at htn1
                rw [htn1] at htn2
                injection htn2 with h
                exact h.symm
              refine ⟨u, ?_, by rw [hname, hnm2], by rw [hnm2]; exact hne⟩
              exact List.getElem?_set_self hidxlt
            · obtain ⟨t2, ht2, htn2, htne2⟩ := hInv1 nm2 idx2 hl2
              refine ⟨t2, ?_, htn2, htne2⟩
              rw [List.getElem?_set_ne (fun h => hidx2 h.symm)]
              exact ht2
          have hInv2c : ∀ (i : Nat) (t : ToolRec) (nm2 : String),
              (acc.set idx u)[i]? = some t → effToolName t = some nm2 →
              nm2 ≠ "" → seenLookup seen nm2 = some i := by
            intro i t nm2 ht htn htne
            by_cases hi : i = idx
            · subst hi
              rw [List.getElem?_set_self hidxlt] at ht
              injection ht with ht
              rw [← ht, hname] at htn
              injection htn with htn
              rw [← htn]
              exact hlook
            · rw [List.getElem?_set_ne (fun h => hi h.symm)] at ht
              exact hInv2 i t nm2 ht htn htne
          rw [hstep, ih (acc.set idx u) seen hInv1c hInv2c]
          have hdrop : dropSeen seen (u :: ts) = dropSeen seen ts :=
            dropSeen_cons_dropped seen u ts nm hname hne (by rw [hlook]; rfl)
          rw [hdrop]
          congr 1
          apply List.ext_getElem?
          intro n
          rw [List.getElem?_map, List.getElem?_map]
          by_cases hn : n = idx
          · subst hn
            rw [List.getElem?_set_self hidxlt]
            obtain ⟨t, ht, htn, htne⟩ := hInv1 nm n hlook
            rw [ht]
            simp only [Option.map_some']
            congr 1
            exact (toolPatch_cons_same u ts t
              (by unfold isNamedTool optTruthy; rw [htn]; simpa using htne)
              (by rw [hname, htn])).symm
          · rw [List.getElem?_set_ne (fun h => hn h.symm)]
            cases hct : acc[n]? with
            | none => rfl
            | some t =>
              simp only [Option.map_some']
              congr 1
              refine (toolPatch_cons_ne u ts t ?_).symm
              intro hnt heq
              cases htn2 : effToolName t with
              | none => unfold isNamedTool optTruthy at hnt; rw [htn2] at hnt; simp at hnt
              | some nm2 =>
                have htne2 : nm2 ≠ "" := by
                  unfold isNamedTool optTruthy at hnt
                  rw [htn2] at hnt
                  simpa using hnt
                have hl2 := hInv2 n t nm2 hct htn2 htne2
                rw [hname, htn2] at heq
                injection heq with heq
                rw [← heq] at hl2
                rw [hlook] at hl2
                injection hl2 with hl2
                exact hn hl2.symm
        | none =>
          have hstep : dedupToolsAux (u :: ts) acc seen =
              dedupToolsAux ts (acc ++ [u]) ((nm, acc.length) :: seen) := by
            simp only [dedupToolsAux, hname]
            rw [if_pos hne]
            simp only [hlook]
          have hInv1d : ∀ nm2 idx2, seenLookup ((nm, acc.length) :: seen) nm2 = some idx2 →
              ∃ t, (acc ++ [u])[idx2]? = some t ∧
                effToolName t = some nm2 ∧ nm2 ≠ "" := by
            intro nm2 idx2 hl2
            rw [seenLookup_cons] at hl2
            by_cases h2 : nm2 = nm
            · rw [if_pos h2] at hl2
              injection hl2 with hl2
              refine ⟨u, ?_, by rw [hname, h2], h2 ▸ hne⟩
              rw [← hl2, List.getElem?_append, if_neg (by omega)]
              simp
            · rw [if_neg h2] at hl2
              exact happend_inv1 nm2 idx2 hl2
          have hInv2d : ∀ (i : Nat) (t : ToolRec) (nm2 : String),
              (acc ++ [u])[i]? = some t → effToolName t = some nm2 → nm2 ≠ "" →
              seenLookup ((nm, acc.length) :: seen) nm2 = some i := by
            intro i t nm2 ht htn htne
            by_cases hi : i < acc.length
            · rw [List.getElem?_append, if_pos hi] at ht
              have hold := hInv2 i t nm2 ht htn htne
              rw [seenLookup_cons]
              rw [if_neg (by
                intro h2
                rw [h2] at hold
                rw [hlook] at hold
                exact Option.noConfusion hold)]
              exact hold
            · rw [List.getElem?_append, if_neg hi] at ht
              obtain ⟨hz, htu⟩ := hsingleton _ _ ht
              have hieq : i = acc.length := by omega
              rw [htu, hname] at htn
              injection htn with htn
              rw [seenLookup_cons, if_pos htn.symm, hieq]
          rw [hstep, ih (acc ++ [u]) ((nm, acc.length) :: seen) hInv1d hInv2d]
          have hnu : isNamedTool u = true := by
            unfold isNamedTool optTruthy
            rw [hname]
            simpa using hne
          have hkept : dropSeen seen (u :: ts) = u :: dropSeen seen ts :=
            dropSeen_cons_kept seen u ts (by
              intro nm2 hu _
              rw [hname] at hu
              injection hu with hu
              rw [← hu]
              exact hlook)
          rw [hkept, specDedup_cons_named u _ hnu]
          have hhead : ((dropSeen seen ts).filter
              (fun v => effToolName v = effToolName u)).getLastD u =
              toolPatch ts u := by
            have h1 : ((dropSeen seen ts).filter
                (fun v => effToolName v = effToolName u)) =
                ts.filter (fun v => effToolName v = effToolName u) := by
              simp only [hname]
              exact dropSeen_filter_same seen ts nm hlook
            rw [h1]
            exact getLastD_filter_eq_toolPatch ts u hnu
          have htail : (dropSeen seen ts).filter
              (fun v => effToolName v ≠ effToolName u) =
              dropSeen ((nm, acc.length) :: seen) ts := by
            rw [dropSeen_extend seen nm acc.length ts hne]
            simp only [hname]
          rw [hhead, htail]
          rw [hmap_ne (by
            intro t2 ht2 hnt2 heq
            cases htn2 : effToolName t2 with
            | none =>
              unfold isNamedTool optTruthy at hnt2
              rw [htn2] at hnt2
              simp at hnt2
            | some nm2 =>
              have htne2 : nm2 ≠ "" := by
                unfold isNamedTool optTruthy at hnt2
                rw [htn2] at hnt2
                simpa using hnt2
              obtain ⟨i, hci⟩ := List.mem_iff_getElem?.mp ht2
              have hl2 := hInv2 i t2 nm2 hci htn2 htne2
              rw [hname, htn2] at heq
              injection heq with heq
              rw [← heq] at hl2
              rw [hlook] at hl2
              exact Option.noConfusion hl2)]
          rw [List.map_append]
          simp
      · -- empty name: pushed without registration, like an unnamed tool
        push_neg at hne
        subst hne
        have hstep : dedupToolsAux (u :: ts) acc seen =
            dedupToolsAux ts (acc ++ [u]) seen := by
          simp only [dedupToolsAux, hname]
          rw [if_neg (by simp)]
        have hInv2b : ∀ (i : Nat) (t : ToolRec) (nm2 : String),
            (acc ++ [u])[i]? = some t → effToolName t = some nm2 → nm2 ≠ "" →
            seenLookup seen nm2 = some i := by
          intro i t nm2 ht htn htne
          by_cases hi : i < acc.length
          · rw [List.getElem?_append, if_pos hi] at ht
            exact hInv2 i t nm2 ht htn htne
          · rw [List.getElem?_append, if_neg hi] at ht
            obtain ⟨_, htu⟩ := hsingleton _ _ ht
            rw [htu, hname] at htn
            injection htn with htn
            exact absurd htn.symm htne
        rw [hstep, ih (acc ++ [u]) seen happend_inv1 hInv2b]
        have hnn : ¬ isNamedTool u = true := by
          simp [isNamedTool, hname, optTruthy]
        have hkept : dropSeen seen (u :: ts) = u :: dropSeen seen ts :=
          dropSeen_cons_kept seen u ts (by
            intro nm2 hu hne2
            rw [hname] at hu
            injection hu with hu
            exact absurd hu.symm hne2)
        rw [hkept, specDedup_cons_unnamed u _ hnn]
        rw [hmap_ne (by
          intro t2 _ hnt2 heq
          cases htn2 : effToolName t2 with
          | none =>
            unfold isNamedTool optTruthy at hnt2
            rw [htn2] at hnt2
            simp at hnt2
          | some nm2 =>
            have htne2 : nm2 ≠ "" := by
              unfold isNamedTool optTruthy at hnt2
              rw [htn2] at hnt2
              simpa using hnt2
            rw [hname, htn2] at heq
            injection heq with heq
            exact htne2 heq.symm)]
        rw [List.map_append]
        have hpu : toolPatch ts u = u := by
          unfold toolPatch
          rw [if_neg (fun hc => hnn hc.1)]
        simp [hpu]

theorem eff_getLastD_filter (ts : List ToolRec) (u : ToolRec) :
    effToolName ((ts.filter (fun v => effToolName v = effToolName u)).getLastD u) =
      effToolName u := by
  rcases List.eq_nil_or_concat
      (ts.filter (fun v => decide (effToolName v = effToolName u))) with h | ⟨l2, a, h⟩
  · rw [h]
    rfl
  · rw [List.concat_eq_append] at h
    rw [h, List.getLastD_concat]
    have ha : a ∈ ts.filter (fun v => decide (effToolName v = effToolName u)) := by
      rw [h]
      exact List.mem_append_right _ (List.mem_singleton_self a)
    simpa using List.of_mem_filter ha

theorem specDedup_mem (l : List ToolRec) : ∀ x ∈ specDedup l, x ∈ l := by
  induction l using specDedup.induct with
  | case1 => simp [specDedup]
  | case2 t ts h ih =>
    intro x hx
    rw [specDedup_cons_named t ts h] at hx
    rcases List.mem_cons.mp hx with hx | hx
    · rcases List.eq_nil_or_concat
          (ts.filter (fun v => decide (effToolName v = effToolName t))) with h2 | ⟨l2, a, h2⟩
      · rw [h2] at hx
        exact hx ▸ List.mem_cons_self _ _
      · rw [List.concat_eq_append] at h2
        rw [h2, List.getLastD_concat] at hx
        have ha : a ∈ ts.filter (fun v => decide (effToolName v = effToolName t)) := by
          rw [h2]
          exact List.mem_append_right _ (List.mem_singleton_self a)
        exact hx ▸ List.mem_cons_of_mem _ (List.mem_of_mem_filter ha)
    · exact List.mem_cons_of_mem _ (List.mem_of_mem_filter (ih x hx))
  | case3 t ts h ih =>
    intro x hx
    rw [specDedup_cons_unnamed t ts h] at hx
    rcases List.mem_cons.mp hx with hx | hx
    · exact hx ▸ List.mem_cons_self _ _
    · exact List.mem_cons_of_mem _ (ih x hx)

theorem specDedup_count (l : List ToolRec) (nm : String) (hnm : nm ≠ "") :
    ((specDedup l).filter (fun t => effToolName t = some nm)).length ≤ 1 := by
  induction l using specDedup.induct with
  | case1 => simp [specDedup]
  | case2 t ts h ih =>
    rw [specDedup_cons_named t ts h]
    by_cases hsame : effToolName t = some nm
    · rw [List.filter_cons_of_pos (by
        show decide (effToolName
          ((ts.filter (fun v => effToolName v = effToolName t)).getLastD t) = some nm) = true
        rw [eff_getLastD_filter ts t, hsame]
        simp)]
      simp only [List.length_cons, Nat.add_le_add_iff_right]
      have hzero : (specDedup (ts.filter
          (fun v => effToolName v ≠ effToolName t))).filter
          (fun t2 => effToolName t2 = some nm) = [] := by
        rw [List.filter_eq_nil]
        intro a hain
        have hmem := specDedup_mem _ a hain
        have hprop := List.of_mem_filter hmem
        simp only [decide_eq_true_eq] at hprop ⊢
        intro heq
        rw [heq, hsame] at hprop
        exact hprop rfl
      rw [hzero]
      simp
    · rw [List.filter_cons_of_neg (by
        show ¬ decide (effToolName
          ((ts.filter (fun v => effToolName v = effToolName t)).getLastD t) = some nm) = true
        rw [eff_getLastD_filter ts t]
        simp [hsame])]
      exact ih
  | case3 t ts h ih =>
    rw [specDedup_cons_unnamed t ts h]
    have htname : ¬ effToolName t = some nm := by
      intro heq
      unfold isNamedTool optTruthy at h
      rw [heq] at h
      simp at h
      exact hnm h
    rw [List.filter_cons_of_neg (by simpa using htname)]
    exact ih

/-- Claim C10: the tool list the model is bound to is `dedupTools`, which
equals the specification-level last-wins dedup: each truthy tool name is
bound at most once, the binding is the last tool with that name placed at
the first occurrence's position, and falsy-named tools are kept as-is. -/
theorem C10_dedup_lastwins (ts : List ToolRec) :
    dedupTools ts = specDedup ts ∧
    (∀ nm : String, nm ≠ "" →
      ((dedupTools ts).filter (fun t => effToolName t = some nm)).length ≤ 1) := by
  have hmain : dedupTools ts = specDedup ts := by
    unfold dedupTools
    rw [dedupToolsAux_spec ts [] []
      (by intro nm idx h; simp [seenLookup] at h)
      (by intro i t nm h; simp at h)]
    simp only [List.map_nil, List.nil_append]
    congr 1
    unfold dropSeen
    apply List.filter_eq_self.mpr
    intro v _
    exact dropSeen_keeps [] v (by intro nm _ _; rfl)
  refine ⟨hmain, ?_⟩
  intro nm hnm
  rw [hmain]
  exact specDedup_count ts nm hnm


/-! ### C7 — tool-call id repair pass -/

theorem mem_of_mem_dedupFirstAux (x : String) :
    ∀ (seen l : List String), x ∈ dedupFirstAux seen l → x ∈ l := by
  intro seen l
  induction l generalizing seen with
  | nil => simp [dedupFirstAux]
  | cons a t ih =>
    intro hx
    rw [dedupFirstAux] at hx
    by_cases ha : a ∈ seen
    · rw [if_pos ha] at hx
      exact List.mem_cons_of_mem _ (ih _ hx)
    · rw [if_neg ha] at hx
      rcases List.mem_cons.mp hx with h | h
      · exact h ▸ List.mem_cons_self _ _
      · exact List.mem_cons_of_mem _ (ih _ h)

theorem mem_dedupFirstAux_of_mem (x : String) :
    ∀ (seen l : List String), x ∈ l → x ∈ dedupFirstAux seen l ∨ x ∈ seen := by
  intro seen l
  induction l generalizing seen with
  | nil => simp
  | cons a t ih =>
    intro hx
    rw [dedupFirstAux]
    by_cases ha : a ∈ seen
    · rw [if_pos ha]
      rcases List.mem_cons.mp hx with h | h
      · exact Or.inr (h ▸ ha)
      · exact ih _ h
    · rw [if_neg ha]
      rcases List.mem_cons.mp hx with h | h
      · exact Or.inl (h ▸ List.mem_cons_self _ _)
      · rcases ih (a :: seen) h with h2 | h2
        · exact Or.inl (List.mem_cons_of_mem _ h2)
        · rcases List.mem_cons.mp h2 with h3 | h3
          · exact Or.inl (h3 ▸ List.mem_cons_self _ _)
          · exact Or.inr h3

theorem genId_ne_empty (b : String) (now c : Nat) : genId b now c ≠ "" := by
  intro h
  have hlen := congrArg String.length h
  rw [genId] at hlen
  simp only [String.length_append] at hlen
  have h1 : ("_" : String).length = 1 := rfl
  have h0 : ("" : String).length = 0 := rfl
  rw [h1, h0] at hlen
  omega

theorem truthyIds_ne_empty (tcs : List ToolCall) : ∀ x ∈ truthyIds tcs, x ≠ "" := by
  intro x hx
  have := List.of_mem_filter hx
  simpa using this

theorem blockToolUseId_ne_empty (b : Block) (x : String)
    (h : blockToolUseId b = some x) : x ≠ "" := by
  cases b with
  | str s => simp [blockToolUseId] at h
  | text t => simp [blockToolUseId] at h
  | toolUse i n inp =>
    cases i with
    | none => simp [blockToolUseId] at h
    | some i0 =>
      by_cases hi : i0 ≠ ""
      · rw [blockToolUseId, if_pos hi] at h
        injection h with h
        exact h ▸ hi
      · rw [blockToolUseId, if_neg hi] at h
        exact Option.noConfusion h
  | toolResult a c => simp [blockToolUseId] at h
  | obj j => simp [blockToolUseId] at h

theorem perMsgIds_ne_empty (m : Msg) : ∀ x ∈ perMsgIds m, x ≠ "" := by
  intro x hx
  unfold perMsgIds at hx
  rcases List.mem_append.mp hx with hx1 | hx3
  · rcases List.mem_append.mp hx1 with hx1 | hx2
    · exact truthyIds_ne_empty _ x hx1
    · obtain ⟨b, hb, hbe⟩ := List.mem_filterMap.mp hx2
      exact blockToolUseId_ne_empty b x hbe
  · exact truthyIds_ne_empty _ x hx3

theorem idsInMessage_ne_empty (m : Msg) : ∀ x ∈ idsInMessage m, x ≠ "" := by
  intro x hx
  exact perMsgIds_ne_empty m x (mem_of_mem_dedupFirstAux x [] _ hx)

theorem origIds_ne_empty (ms : List Msg) : ∀ x ∈ origIds ms, x ≠ "" := by
  intro x hx
  unfold origIds at hx
  obtain ⟨l, hl, hxl⟩ := List.mem_flatten.mp hx
  obtain ⟨m, hm, hml⟩ := List.mem_map.mp hl
  by_cases hrole : m.role = "assistant"
  · rw [if_pos hrole] at hml
    rw [← hml] at hxl
    exact idsInMessage_ne_empty _ x hxl
  · rw [if_neg hrole] at hml
    rw [← hml] at hxl
    simp at hxl

theorem substIdMsg_role (old new : String) (m : Msg) :
    (substIdMsg old new m).role = m.role := rfl

theorem phase1_role (m : Msg) : (phase1 m).role = m.role := by
  simp only [phase1]
  repeat' split
  all_goals rfl

theorem patchMsgRefs_role (old new : String) (m : Msg) :
    (patchMsgRefs old new m).role = m.role := by
  simp only [patchMsgRefs]
  repeat' split
  all_goals rfl

theorem assistantIds_of_assistant (m : Msg) (h : m.role = "assistant") :
    assistantIds m = perMsgIds m := by rw [assistantIds, if_pos h]

theorem assistantIds_of_not_assistant (m : Msg) (h : ¬ m.role = "assistant") :
    assistantIds m = [] := by rw [assistantIds, if_neg h]

theorem pendingRenames_cons (m : Msg) (l : List Msg) :
    pendingRenames (m :: l) =
      (if m.role = "assistant" then (idsInMessage (phase1 m)).length else 0) +
        pendingRenames l := by
  simp [pendingRenames]

theorem patchDownstream_split (old new : String) (l : List Msg) :
    ∃ pre post, l = pre ++ post ∧
      patchDownstream old new l = pre.map (patchMsgRefs old new) ++ post ∧
      (∀ m ∈ pre, m.role ≠ "assistant") ∧
      (∀ m, post.head? = some m → m.role = "assistant") := by
  induction l with
  | nil => exact ⟨[], [], rfl, rfl, by simp, by simp⟩
  | cons m rest ih =>
    by_cases hrole : m.role = "assistant"
    · refine ⟨[], m :: rest, rfl, ?_, by simp, ?_⟩
      · rw [patchDownstream, if_pos hrole]
        rfl
      · intro m2 hm2
        simp only [List.head?_cons, Option.some.injEq] at hm2
        exact hm2 ▸ hrole
    · obtain ⟨pre, post, h1, h2, h3, h4⟩ := ih
      refine ⟨m :: pre, post, by rw [List.cons_append, ← h1], ?_, ?_, h4⟩
      · rw [patchDownstream, if_neg hrole, h2]
        rfl
      · intro m2 hm2
        rcases List.mem_cons.mp hm2 with h | h
        · exact h ▸ hrole
        · exact h3 m2 h

theorem patchDownstream_length (old new : String) (l : List Msg) :
    (patchDownstream old new l).length = l.length := by
  obtain ⟨pre, post, h1, h2, h3, h4⟩ := patchDownstream_split old new l
  rw [h2, h1]
  simp

theorem patchDownstream_assistant (old new : String) (l : List Msg)
    (P : Msg → Prop) (h : ∀ m ∈ l, m.role = "assistant" → P m) :
    ∀ m ∈ patchDownstream old new l, m.role = "assistant" → P m := by
  obtain ⟨pre, post, h1, h2, h3, h4⟩ := patchDownstream_split old new l
  rw [h2]
  intro m hm hrole
  rcases List.mem_append.mp hm with hm | hm
  · obtain ⟨m0, hm0, hme⟩ := List.mem_map.mp hm
    rw [← hme, patchMsgRefs_role] at hrole
    exact absurd hrole (h3 m0 hm0)
  · exact h m (h1 ▸ List.mem_append_right pre hm) hrole

theorem patchDownstream_pendingRenames (old new : String) (l : List Msg) :
    pendingRenames (patchDownstream old new l) = pendingRenames l := by
  obtain ⟨pre, post, h1, h2, h3, h4⟩ := patchDownstream_split old new l
  rw [h2, h1]
  unfold pendingRenames
  rw [List.map_append, List.map_append, List.sum_append, List.sum_append]
  congr 1
  rw [List.map_map]
  apply congrArg
  apply List.map_congr_left
  intro m hm
  have hr : ¬ (patchMsgRefs old new m).role = "assistant" := by
    rw [patchMsgRefs_role]
    exact h3 m hm
  simp only [Function.comp_apply, if_neg hr, if_neg (h3 m hm)]

theorem truthyIds_subst (old new : String) (ho : old ≠ "") (hn : new ≠ "")
    (tcs : List ToolCall) :
    truthyIds (substIdToolCalls old new tcs) =
      (truthyIds tcs).map (fun x => if x = old then new else x) := by
  induction tcs with
  | nil => rfl
  | cons tc rest ih =>
    have hhead : ∀ t : ToolCall,
        (if t.id = some old then { t with id := some new } else t).id =
          if t.id = some old then some new else t.id := by
      intro t
      split_ifs <;> rfl
    simp only [substIdToolCalls, List.map_cons, truthyIds, List.filterMap_cons,
      hhead] at ih ⊢
    rcases htc : tc.id with _ | z
    · simp only [htc]
      have hne : ¬ (none : Option String) = some old := by simp
      rw [if_neg hne]
      exact ih
    · simp only [htc]
      by_cases hz : z = old
      · subst hz
        rw [if_pos rfl]
        simp only [List.filter_cons]
        rw [if_pos (by simpa using hn), if_pos (by simpa using ho)]
        rw [ih]
        simp
      · rw [if_neg (by simpa using hz)]
        simp only [List.filter_cons]
        by_cases hze : z = ""
        · subst hze
          rw [if_neg (by simp)]
          exact ih
        · have hzt : decide (z ≠ "") = true := by simpa using hze
          simp only [if_pos hzt]
          rw [ih]
          simp [hz]

theorem filterMap_substIdBlocks (old new : String) (ho : old ≠ "") (hn : new ≠ "")
    (bs : List Block) :
    (substIdBlocks old new bs).filterMap blockToolUseId =
      (bs.filterMap blockToolUseId).map (fun x => if x = old then new else x) := by
  induction bs with
  | nil => rfl
  | cons b rest ih =>
    cases b with
    | str s => exact ih
    | text t => exact ih
    | obj j => exact ih
    | toolResult a c => exact ih
    | toolUse i n inp =>
      cases i with
      | none => exact ih
      | some i0 =>
        by_cases hi : i0 = old
        · have h1 : substIdBlocks old new (Block.toolUse (some i0) n inp :: rest) =
              Block.toolUse (some new) n inp :: substIdBlocks old new rest := by
            show (if i0 = old then Block.toolUse (some new) n inp
              else Block.toolUse (some i0) n inp) :: substIdBlocks old new rest = _
            rw [if_pos hi]
          have h2 : blockToolUseId (Block.toolUse (some new) n inp) = some new := by
            rw [blockToolUseId, if_pos hn]
          have h3 : blockToolUseId (Block.toolUse (some i0) n inp) = some i0 := by
            rw [blockToolUseId, if_pos (show i0 ≠ "" from hi ▸ ho)]
          rw [h1, List.filterMap_cons_some h2, List.filterMap_cons_some h3,
            List.map_cons, ih]
          congr 1
          rw [if_pos hi]
        · have h1 : substIdBlocks old new (Block.toolUse (some i0) n inp :: rest) =
              Block.toolUse (some i0) n inp :: substIdBlocks old new rest := by
            show (if i0 = old then Block.toolUse (some new) n inp
              else Block.toolUse (some i0) n inp) :: substIdBlocks old new rest = _
            rw [if_neg hi]
          rw [h1]
          by_cases hie : i0 = ""
          · have h2 : blockToolUseId (Block.toolUse (some i0) n inp) = none := by
              rw [blockToolUseId, if_neg (by simpa using hie)]
            rw [List.filterMap_cons_none h2, List.filterMap_cons_none h2]
            exact ih
          · have h2 : blockToolUseId (Block.toolUse (some i0) n inp) = some i0 := by
              rw [blockToolUseId, if_pos (by simpa using hie)]
            rw [List.filterMap_cons_some h2, List.filterMap_cons_some h2,
              List.map_cons, ih]
            congr 1
            rw [if_neg hi]

theorem perMsgIds_subst (old new : String) (ho : old ≠ "") (hn : new ≠ "")
    (m : Msg) :
    perMsgIds (substIdMsg old new m) =
      (perMsgIds m).map (fun x => if x = old then new else x) := by
  unfold perMsgIds substIdMsg msgToolCalls
  rw [List.map_append, List.map_append]
  congr 1
  · congr 1
    · cases htc : m.tool_calls with
      | none => rfl
      | some tcs =>
        simp only [Option.map_some', Option.getD_some]
        exact truthyIds_subst old new ho hn tcs
    · cases hc : m.content with
      | nullc => rfl
      | str s => rfl
      | obj j => rfl
      | arr bs =>
        show List.filterMap blockToolUseId (substIdBlocks old new bs) =
          (List.filterMap blockToolUseId bs).map (fun x => if x = old then new else x)
        exact filterMap_substIdBlocks old new ho hn bs
  · cases hak : m.akToolCalls with
    | none => rfl
    | some tcs =>
      simp only [Option.map_some', Option.getD_some]
      exact truthyIds_subst old new ho hn tcs

theorem renameIdsAux_spec (now : Nat) (O F : List String) (K : Nat)
    (HO : ∀ x ∈ O, x ≠ "")
    (Hf : ∀ b c, b ∈ O → c < K → genId b now c ∉ O)
    (Hinj : ∀ b b2 c c2, b ∈ O → b2 ∈ O → c < K → c2 < K →
      genId b now c = genId b2 now c2 → c = c2) :
    ∀ (ids : List String) (m : Msg) (rest : List Msg) (used : List String)
      (counter : Nat) (m2 : Msg) (rest2 : List Msg) (used2 : List String)
      (counter2 : Nat),
    renameIdsAux now ids m rest used counter = (m2, rest2, used2, counter2) →
    (∀ x ∈ ids, x ∈ O) →
    counter + ids.length ≤ K →
    (∀ x ∈ used, x ∈ O ∨ ∃ b c, b ∈ O ∧ c < counter ∧ x = genId b now c) →
    (∀ x ∈ F, x ∈ used) →
    (∀ x ∈ perMsgIds m, x ∈ ids ∨ (x ∈ used ∧ x ∉ F)) →
    (∀ x ∈ perMsgIds m2, x ∈ used2 ∧ x ∉ F) ∧
    (∀ x ∈ used, x ∈ used2) ∧
    (∀ x ∈ used2, x ∈ O ∨ ∃ b c, b ∈ O ∧ c < counter2 ∧ x = genId b now c) ∧
    counter ≤ counter2 ∧ counter2 ≤ counter + ids.length ∧
    m2.role = m.role ∧
    rest2.length = rest.length ∧
    (∀ P : Msg → Prop, (∀ m3 ∈ rest, m3.role = "assistant" → P m3) →
      ∀ m3 ∈ rest2, m3.role = "assistant" → P m3) ∧
    pendingRenames rest2 = pendingRenames rest := by
  intro ids
  induction ids with
  | nil =>
    intro m rest used counter m2 rest2 used2 counter2 heq h1 h2 h3 h4 h5
    rw [renameIdsAux] at heq
    simp only [Prod.mk.injEq] at heq
    obtain ⟨e1, e2, e3, e4⟩ := heq
    subst e1; subst e2; subst e3; subst e4
    refine ⟨?_, fun x hx => hx, h3, Nat.le_refl _, by simp, rfl, rfl,
      fun P hP => hP, rfl⟩
    intro x hx
    rcases h5 x hx with hc | hc
    · simp at hc
    · exact hc
  | cons id ids ih =>
    intro m rest used counter m2 rest2 used2 counter2 heq h1 h2 h3 h4 h5
    rw [renameIdsAux] at heq
    have hidO : id ∈ O := h1 id (List.mem_cons_self _ _)
    have hcK : counter < K := by
      simp only [List.length_cons] at h2
      omega
    by_cases hmem : id ∈ used
    · rw [if_pos hmem] at heq
      have hnidO : genId id now counter ∉ O := Hf id counter hidO hcK
      have hnidused : genId id now counter ∉ used := by
        intro hin
        rcases h3 _ hin with hO | ⟨b, c, hb, hc, hgen⟩
        · exact hnidO hO
        · have := Hinj id b counter c hidO hb hcK (hc.trans hcK) hgen
          omega
      obtain ⟨c1, c2, c3, c4a, c4b, c5, c6, c7, c8⟩ := ih
        (substIdMsg id (genId id now counter) m)
        (patchDownstream id (genId id now counter) rest)
        (used ++ [genId id now counter]) (counter + 1)
        m2 rest2 used2 counter2 heq
        (fun x hx => h1 x (List.mem_cons_of_mem _ hx))
        (by simp only [List.length_cons] at h2; omega)
        (by
          intro x hx
          rcases List.mem_append.mp hx with hx | hx
          · rcases h3 x hx with hO | ⟨b, c, hb, hc, hgen⟩
            · exact Or.inl hO
            · exact Or.inr ⟨b, c, hb, by omega, hgen⟩
          · rw [List.mem_singleton] at hx
            exact Or.inr ⟨id, counter, hidO, Nat.lt_succ_self _, hx⟩)
        (fun x hx => List.mem_append_left _ (h4 x hx))
        (by
          intro x hx
          rw [perMsgIds_subst id (genId id now counter) (HO id hidO)
            (genId_ne_empty id now counter)] at hx
          obtain ⟨y, hy, hxy⟩ := List.mem_map.mp hx
          by_cases hyid : y = id
          · rw [if_pos hyid] at hxy
            refine Or.inr ⟨hxy ▸ List.mem_append_right _ (List.mem_singleton_self _), ?_⟩
            rw [← hxy]
            exact fun hF => hnidused (h4 _ hF)
          · rw [if_neg hyid] at hxy
            subst hxy
            rcases h5 y hy with hc | ⟨hu, hnF⟩
            · rcases List.mem_cons.mp hc with hc | hc
              · exact absurd hc hyid
              · exact Or.inl hc
            · exact Or.inr ⟨List.mem_append_left _ hu, hnF⟩)
      refine ⟨c1, fun x hx => c2 x (List.mem_append_left _ hx), c3, by omega,
        by simp only [List.length_cons]; omega, ?_, ?_, ?_, ?_⟩
      · rw [c5, substIdMsg_role]
      · rw [c6, patchDownstream_length]
      · intro P hP
        exact c7 P (patchDownstream_assistant _ _ _ P hP)
      · rw [c8, patchDownstream_pendingRenames]
    · rw [if_neg hmem] at heq
      obtain ⟨c1, c2, c3, c4a, c4b, c5, c6, c7, c8⟩ := ih
        m rest (used ++ [id]) counter
        m2 rest2 used2 counter2 heq
        (fun x hx => h1 x (List.mem_cons_of_mem _ hx))
        (by simp only [List.length_cons] at h2; omega)
        (by
          intro x hx
          rcases List.mem_append.mp hx with hx | hx
          · exact h3 x hx
          · rw [List.mem_singleton] at hx
            exact Or.inl (hx ▸ hidO))
        (fun x hx => List.mem_append_left _ (h4 x hx))
        (by
          intro x hx
          rcases h5 x hx with hc | ⟨hu, hnF⟩
          · rcases List.mem_cons.mp hc with hc | hc
            · refine Or.inr ⟨hc ▸ List.mem_append_right _ (List.mem_singleton_self _), ?_⟩
              rw [hc]
              exact fun hF => hmem (h4 _ hF)
            · exact Or.inl hc
          · exact Or.inr ⟨List.mem_append_left _ hu, hnF⟩)
      exact ⟨c1, fun x hx => c2 x (List.mem_append_left _ hx), c3, c4a,
        by simp only [List.length_cons]; omega, c5, c6, c7, c8⟩

theorem perMsgIds_of_no_bits (m : Msg)
    (h1 : ¬ msgToolCalls m ≠ [])
    (h2 : ¬ (contentArr m.content).any (fun b => (blockToolUseId b).isSome))
    (h3 : ¬ m.akToolCalls.getD [] ≠ []) :
    perMsgIds m = [] := by
  have e1 : msgToolCalls m = [] := not_not.mp h1
  have e3 : m.akToolCalls.getD [] = [] := not_not.mp h3
  have e2 : (contentArr m.content).filterMap blockToolUseId = [] := by
    have h2n : ∀ x ∈ contentArr m.content, blockToolUseId x = none := by
      simpa using h2
    rw [List.filterMap_eq_nil_iff]
    exact h2n
  unfold perMsgIds
  rw [e1, e2, e3]
  rfl

theorem euAux_spec (now : Nat) (O : List String) (K : Nat)
    (HO : ∀ x ∈ O, x ≠ "")
    (Hf : ∀ b c, b ∈ O → c < K → genId b now c ∉ O)
    (Hinj : ∀ b b2 c c2, b ∈ O → b2 ∈ O → c < K → c2 < K →
      genId b now c = genId b2 now c2 → c = c2) :
    ∀ (fuel : Nat) (msgs : List Msg) (used : List String) (counter : Nat),
    msgs.length ≤ fuel →
    (∀ x ∈ used, x ∈ O ∨ ∃ b c, b ∈ O ∧ c < counter ∧ x = genId b now c) →
    (∀ m ∈ msgs, m.role = "assistant" → ∀ x ∈ idsInMessage (phase1 m), x ∈ O) →
    counter + pendingRenames msgs ≤ K →
    List.Pairwise (fun a b => ∀ i ∈ assistantIds a, i ∉ assistantIds b)
      (euAux now fuel used counter msgs) ∧
    (∀ m2 ∈ euAux now fuel used counter msgs, ∀ x ∈ assistantIds m2, x ∉ used) := by
  intro fuel
  induction fuel with
  | zero =>
    intro msgs used counter hlen h2 h3 h4
    have hnil : msgs = [] := List.length_eq_zero.mp (Nat.le_zero.mp hlen)
    subst hnil
    rw [euAux]
    exact ⟨List.Pairwise.nil, by simp⟩
  | succ fuel ih =>
    intro msgs used counter hlen h2 h3 h4
    cases msgs with
    | nil =>
      rw [euAux]
      exact ⟨List.Pairwise.nil, by simp⟩
    | cons m rest =>
      rw [euAux]
      have hlen2 : rest.length ≤ fuel := by
        simp only [List.length_cons] at hlen
        omega
      by_cases hrole : m.role = "assistant"
      · rw [if_neg (fun hc => hc hrole)]
        by_cases hbits : ¬ msgToolCalls m ≠ [] ∧
            ¬ (contentArr m.content).any (fun b => (blockToolUseId b).isSome) ∧
            ¬ m.akToolCalls.getD [] ≠ []
        · rw [if_pos hbits]
          have hAm : assistantIds m = [] := by
            rw [assistantIds_of_assistant m hrole,
              perMsgIds_of_no_bits m hbits.1 hbits.2.1 hbits.2.2]
          obtain ⟨ihp, ihn⟩ := ih rest used counter hlen2 h2
            (fun m3 hm3 => h3 m3 (List.mem_cons_of_mem _ hm3))
            (by rw [pendingRenames_cons] at h4; omega)
          constructor
          · exact List.Pairwise.cons
              (fun b hb i hi => by rw [hAm] at hi; simp at hi) ihp
          · intro m2 hm2 x hx
            rcases List.mem_cons.mp hm2 with h | h
            · rw [h, hAm] at hx
              simp at hx
            · exact ihn m2 h x hx
        · rw [if_neg hbits]
          rcases hreq : renameIdsAux now (idsInMessage (phase1 m)) (phase1 m)
              rest used counter with ⟨mr, restr, usedr, counterr⟩
          simp only [hreq]
          obtain ⟨c1, c2, c3, c4a, c4b, c5, c6, c7, c8⟩ :=
            renameIdsAux_spec now O used K HO Hf Hinj
              (idsInMessage (phase1 m)) (phase1 m) rest used counter
              mr restr usedr counterr hreq
              (h3 m (List.mem_cons_self _ _) hrole)
              (by
                rw [pendingRenames_cons, if_pos hrole] at h4
                omega)
              h2
              (fun x hx => hx)
              (by
                intro x hx
                rcases mem_dedupFirstAux_of_mem x [] (perMsgIds (phase1 m)) hx with
                  h | h
                · exact Or.inl h
                · simp at h)
          have hwleK : counter + (idsInMessage (phase1 m)).length +
              pendingRenames rest ≤ K := by
            rw [pendingRenames_cons, if_pos hrole] at h4
            omega
          obtain ⟨ihp, ihn⟩ := ih restr usedr counterr
            (by rw [c6]; exact hlen2)
            c3
            (c7 (fun m3 => ∀ x ∈ idsInMessage (phase1 m3), x ∈ O)
              (fun m3 hm3 => h3 m3 (List.mem_cons_of_mem _ hm3)))
            (by rw [c8]; omega)
          have hmrrole : mr.role = "assistant" := by
            rw [c5, phase1_role]
            exact hrole
          constructor
          · refine List.Pairwise.cons ?_ ihp
            intro b hb i hi
            rw [assistantIds_of_assistant mr hmrrole] at hi
            exact fun hib => ihn b hb i hib (c1 i hi).1
          · intro m2 hm2 x hx
            rcases List.mem_cons.mp hm2 with h | h
            · rw [h, assistantIds_of_assistant mr hmrrole] at hx
              exact (c1 x hx).2
            · exact fun hxu => ihn m2 h x hx (c2 x hxu)
      · rw [if_pos hrole]
        have hAm : assistantIds m = [] := assistantIds_of_not_assistant m hrole
        obtain ⟨ihp, ihn⟩ := ih rest used counter hlen2 h2
          (fun m3 hm3 => h3 m3 (List.mem_cons_of_mem _ hm3))
          (by rw [pendingRenames_cons, if_neg hrole] at h4; omega)
        constructor
        · exact List.Pairwise.cons
            (fun b hb i hi => by rw [hAm] at hi; simp at hi) ihp
        · intro m2 hm2 x hx
          rcases List.mem_cons.mp hm2 with h | h
          · rw [h, hAm] at hx
            simp at hx
          · exact ihn m2 h x hx

/-- Claim C7 (amended): after the repair pass, provided the generated
replacement ids are fresh (no `base_now_counter` id for a base in the
candidate pool and a counter below the rename budget collides with a
pool id, and equal generated ids force equal counters), every truthy
tool-use/tool-call id occurs in at most one assistant message of the
output; and the rewrite of a duplicated id is propagated only to the
downstream messages before the next assistant message (tool messages via
tool_call_id and tool_result blocks via tool_use_id), every message from
the next assistant message on being left unchanged. -/
theorem C7_unique_ids_amended (now : Nat) (ms : List Msg)
    (Hf : ∀ b ∈ origIds ms, ∀ c < pendingRenames ms,
      genId b now c ∉ origIds ms)
    (Hinj : ∀ b ∈ origIds ms, ∀ b2 ∈ origIds ms,
      ∀ c < pendingRenames ms, ∀ c2 < pendingRenames ms,
      genId b now c = genId b2 now c2 → c = c2) :
    List.Pairwise (fun a b => ∀ i ∈ assistantIds a, i ∉ assistantIds b)
      (ensureUniqueToolCallIds now ms) ∧
    (∀ old new l, ∃ pre post,
      l = pre ++ post ∧
      patchDownstream old new l = pre.map (patchMsgRefs old new) ++ post ∧
      (∀ m ∈ pre, m.role ≠ "assistant") ∧
      (∀ m, post.head? = some m → m.role = "assistant")) := by
  constructor
  · unfold ensureUniqueToolCallIds
    refine (euAux_spec now (origIds ms) (pendingRenames ms)
      (origIds_ne_empty ms)
      (fun b c hb hc => Hf b hb c hc)
      (fun b b2 c c2 hb hb2 hc hc2 => Hinj b hb b2 hb2 c hc c2 hc2)
      ms.length ms [] 0
      (Nat.le_refl _)
      (by simp)
      ?_
      (by omega)).1
    intro m hm hrole x hx
    unfold origIds
    refine List.mem_flatten.mpr ⟨idsInMessage (phase1 m), ?_, hx⟩
    refine List.mem_map.mpr ⟨m, hm, ?_⟩
    rw [if_pos hrole]
  · intro old new l
    exact patchDownstream_split old new l

/-- Witness for C7 (amended) on the duplicate-id history. -/
theorem C7_unique_ids_amended_witness :
    (∀ b ∈ origIds cexMsgs, ∀ c < pendingRenames cexMsgs,
      genId b 7 c ∉ origIds cexMsgs) ∧
    (∀ b ∈ origIds cexMsgs, ∀ b2 ∈ origIds cexMsgs,
      ∀ c < pendingRenames cexMsgs, ∀ c2 < pendingRenames cexMsgs,
      genId b 7 c = genId b2 7 c2 → c = c2) ∧
    List.Pairwise (fun a b => ∀ i ∈ assistantIds a, i ∉ assistantIds b)
      (ensureUniqueToolCallIds 7 cexMsgs) :=
  ⟨by decide, by decide,
    (C7_unique_ids_amended 7 cexMsgs (by decide) (by decide)).1⟩

/-- Counterexample to claim C7 as written: on `cexMsgs` the duplicated id
`x` of the second assistant message is rewritten to the generated id
`x_7_0`, yet the downstream tool message still references the old id `x`
through `tool_call_id`, because the reference patch stops at the
intervening assistant message; so the rewrite is not propagated to every
downstream message that referenced the old id. -/
theorem C7_patch_scope_counterexample :
    genId "x" 7 0 = "x_7_0" ∧
    (ensureUniqueToolCallIds 7 cexMsgs).map assistantIds =
      [["x"], ["x_7_0"], [], []] ∧
    (ensureUniqueToolCallIds 7 cexMsgs).map Msg.role =
      ["assistant", "assistant", "assistant", "tool"] ∧
    (ensureUniqueToolCallIds 7 cexMsgs).map Msg.tool_call_id =
      [none, none, none, some "x"] ∧
    cexMsgs.map Msg.tool_call_id = [none, none, none, some "x"] := by
  decide



/-! ### C2 — turn-loop termination and tool-limit finalize -/

theorem runLoopAux_iters_le (engine : List Msg → Msg) (toolResult : ToolCall → String)
    (now : Nat) (m : MaxTC) :
    ∀ (fuel : Nat) (skip : Bool) (s : LState),
    (runLoopAux engine toolResult now m fuel skip s).iters ≤ fuel := by
  intro fuel
  induction fuel with
  | zero =>
    intro skip s
    rw [runLoopAux]
  | succ fuel ih =>
    intro skip s
    simp only [runLoopAux]
    split_ifs
    all_goals
      first
      | exact Nat.le_add_left 1 fuel
      | exact Nat.succ_le_succ (ih _ _)

theorem runLoopAux_preserves_finalized (engine : List Msg → Msg)
    (toolResult : ToolCall → String) (now : Nat) (m : MaxTC)
    (fuel : Nat) (skip : Bool) (s : LState)
    (h : s.ctx.finalizedDueToToolLimit = true) :
    (runLoopAux engine toolResult now m fuel skip s).final.ctx.finalizedDueToToolLimit
      = true ∧
    (∀ x ∈ s.messages,
      x ∈ (runLoopAux engine toolResult now m fuel skip s).final.messages) := by
  cases fuel with
  | zero =>
    rw [runLoopAux]
    exact ⟨h, fun x hx => hx⟩
  | succ fuel =>
    simp only [runLoopAux]
    by_cases hcr : s.ctx.cancelRequested = true
    · rw [if_pos hcr]
      exact ⟨h, fun x hx => hx⟩
    · rw [if_neg hcr]
      by_cases hbg : ¬ skip = true ∧ budgetExceeded s = true
      · rw [if_pos hbg]
        exact ⟨h, fun x hx => hx⟩
      · rw [if_neg hbg]
        have hs1 : (if skip = true then s else agentStep engine now s).ctx.finalizedDueToToolLimit = true := by
          split_ifs
          · exact h
          · exact h
        rw [if_pos hs1]
        constructor
        · exact hs1
        · intro x hx
          split_ifs
          · exact hx
          · exact List.mem_append_left _ hx

theorem runLoopAux_eq_budget (engine : List Msg → Msg) (toolResult : ToolCall → String)
    (now : Nat) (m : MaxTC) (fuel : Nat) (s : LState)
    (hcr : s.ctx.cancelRequested = false)
    (hb : budgetExceeded s = true) :
    runLoopAux engine toolResult now m (fuel + 1) false s =
      { final := { s with ctx := { s.ctx with needsSummarization := true } }
        iters := 1, entries := [s] } := by
  simp only [runLoopAux]
  rw [if_neg (by simp [hcr]), if_pos (by simp [hb])]

theorem runLoopAux_eq_finalize (engine : List Msg → Msg) (toolResult : ToolCall → String)
    (now : Nat) (m : MaxTC) (fuel : Nat) (s : LState)
    (hcr : s.ctx.cancelRequested = false)
    (hb : budgetExceeded s = false)
    (hfin : (agentStep engine now s).ctx.finalizedDueToToolLimit = false)
    (hreach : tcLimitReached (agentStep engine now s).toolCallCount m = true)
    (htcs : lastToolCalls (agentStep engine now s).messages ≠ []) :
    runLoopAux engine toolResult now m (fuel + 1) false s =
      { final := (runLoopAux engine toolResult now m fuel false
          (finalizeStep (agentStep engine now s))).final
        iters := (runLoopAux engine toolResult now m fuel false
          (finalizeStep (agentStep engine now s))).iters + 1
        entries := s :: (runLoopAux engine toolResult now m fuel false
          (finalizeStep (agentStep engine now s))).entries } := by
  simp only [runLoopAux]
  rw [if_neg (by simp [hcr]), if_neg (by simp [hb])]
  rw [show (if (false : Bool) = true then s else agentStep engine now s) =
    agentStep engine now s from rfl]
  rw [if_neg (by simp [hfin]), if_pos ⟨by simp [hreach], htcs⟩]

theorem runLoopAux_eq_tools (engine : List Msg → Msg) (toolResult : ToolCall → String)
    (now : Nat) (m : MaxTC) (fuel : Nat) (s : LState)
    (hcr : s.ctx.cancelRequested = false)
    (hb : budgetExceeded s = false)
    (hfin : (agentStep engine now s).ctx.finalizedDueToToolLimit = false)
    (hreach : tcLimitReached (agentStep engine now s).toolCallCount m = false)
    (htcs : lastToolCalls (agentStep engine now s).messages ≠ [])
    (haa : (toolsStep toolResult (agentStep engine now s)).ctx.awaitingApproval = false)
    (hso : (toolsStep toolResult (agentStep engine now s)).ctx.finalizedDueToStructuredOutput = false) :
    runLoopAux engine toolResult now m (fuel + 1) false s =
      { final := (runLoopAux engine toolResult now m fuel false
          (toolsStep toolResult (agentStep engine now s))).final
        iters := (runLoopAux engine toolResult now m fuel false
          (toolsStep toolResult (agentStep engine now s))).iters + 1
        entries := s :: (runLoopAux engine toolResult now m fuel false
          (toolsStep toolResult (agentStep engine now s))).entries } := by
  simp only [runLoopAux]
  rw [if_neg (by simp [hcr]), if_neg (by simp [hb])]
  rw [show (if (false : Bool) = true then s else agentStep engine now s) =
    agentStep engine now s from rfl]
  rw [if_neg (by simp [hfin])]
  rw [if_neg (by intro hc; rw [hreach] at hc; simp at hc)]
  rw [if_neg htcs]
  rw [if_neg (by simp [haa]), if_neg (by simp [hso])]

theorem lastToolCalls_append (l : List Msg) (m : Msg) :
    lastToolCalls (l ++ [m]) = msgToolCalls m := by
  unfold lastToolCalls
  have h : (l ++ [m]).getLast? = some m := by simp
  rw [h]

theorem runLoopAux_tool_limit (engine : List Msg → Msg) (toolResult : ToolCall → String)
    (now : Nat) (n : Nat)
    (He : ∀ ms, msgToolCalls (engine ms) ≠ []) :
    ∀ (fuel : Nat) (s : LState),
    s.ctx.cancelRequested = false →
    s.ctx.finalizedDueToToolLimit = false →
    s.ctx.awaitingApproval = false →
    s.ctx.finalizedDueToStructuredOutput = false →
    (∀ e ∈ (runLoopAux engine toolResult now (MaxTC.fin n) fuel false s).entries,
      budgetExceeded e = false) →
    n - s.toolCallCount + 2 ≤ fuel →
    (runLoopAux engine toolResult now (MaxTC.fin n) fuel
      false s).final.ctx.finalizedDueToToolLimit = true ∧
    toolLimitNotice ∈
      (runLoopAux engine toolResult now (MaxTC.fin n) fuel false s).final.messages := by
  intro fuel
  induction fuel with
  | zero =>
    intro s _ _ _ _ _ hfuel
    omega
  | succ fuel ih =>
    intro s hcr hfin haa hso Hbud hfuel
    have hb : budgetExceeded s = false := by
      by_cases hb2 : budgetExceeded s = true
      · have hrun := runLoopAux_eq_budget engine toolResult now (MaxTC.fin n) fuel s hcr hb2
        rw [hrun] at Hbud
        have hcontra := Hbud s (by simp)
        rw [hcontra] at hb2
        exact absurd hb2 (by simp)
      · simpa using hb2
    have hfin1 : (agentStep engine now s).ctx.finalizedDueToToolLimit = false := hfin
    have htcs : lastToolCalls (agentStep engine now s).messages ≠ [] := by
      show lastToolCalls (s.messages ++ [engine _]) ≠ []
      rw [lastToolCalls_append]
      exact He _
    by_cases hreach :
        tcLimitReached (agentStep engine now s).toolCallCount (MaxTC.fin n) = true
    · have hrun := runLoopAux_eq_finalize engine toolResult now (MaxTC.fin n) fuel s
        hcr hb hfin1 hreach htcs
      rw [hrun]
      have hfs : (finalizeStep (agentStep engine now s)).ctx.finalizedDueToToolLimit
          = true := rfl
      obtain ⟨p1, p2⟩ := runLoopAux_preserves_finalized engine toolResult now
        (MaxTC.fin n) fuel false (finalizeStep (agentStep engine now s)) hfs
      refine ⟨p1, ?_⟩
      apply p2
      show toolLimitNotice ∈ (agentStep engine now s).messages ++ [toolLimitNotice]
      exact List.mem_append_right _ (List.mem_singleton_self _)
    · have hreach2 :
          tcLimitReached (agentStep engine now s).toolCallCount (MaxTC.fin n) = false := by
        simpa using hreach
      have haa1 : (toolsStep toolResult (agentStep engine now s)).ctx.awaitingApproval
          = false := haa
      have hso1 : (toolsStep toolResult
          (agentStep engine now s)).ctx.finalizedDueToStructuredOutput = false := hso
      have hrun := runLoopAux_eq_tools engine toolResult now (MaxTC.fin n) fuel s
        hcr hb hfin1 hreach2 htcs haa1 hso1
      rw [hrun] at Hbud ⊢
      have hcount : s.toolCallCount < n := by
        have hnr : ¬ ((agentStep engine now s).toolCallCount ≥ n) := by
          simpa [tcLimitReached] using hreach2
        have hcc : (agentStep engine now s).toolCallCount = s.toolCallCount := rfl
        rw [hcc] at hnr
        omega
      have hlen : 1 ≤ (lastToolCalls (agentStep engine now s).messages).length := by
        cases hcl : lastToolCalls (agentStep engine now s).messages with
        | nil => exact absurd hcl htcs
        | cons a t => simp
      have hcount3 : (toolsStep toolResult (agentStep engine now s)).toolCallCount =
          s.toolCallCount + (lastToolCalls (agentStep engine now s).messages).length := rfl
      obtain ⟨q1, q2⟩ := ih (toolsStep toolResult (agentStep engine now s))
        hcr hfin haa hso
        (fun e he => Hbud e (List.mem_cons_of_mem _ he))
        (by omega)
      exact ⟨q1, q2⟩

/-- Claim C2: with a reasoning engine that always requests one more tool
call, a clean initial ctx, a finite resolved ceiling, and the token budget
not exceeded at any iteration start, the run ends carrying the
__finalizedDueToToolLimit marker, the finalize notice is appended to the
history instead of further tool dispatch, and — for every configuration
and engine — the loop performs at most its iteration ceiling of
iterations, where the ceiling is 100 for Infinity, max(m*3+10, 40) for a
finite ceiling m, and the default ceiling is 50. -/
theorem C2_tool_limit (engine : List Msg → Msg) (toolResult : ToolCall → String)
    (now : Nat) (configuredMax : Option MaxTC) (n : Nat) (initial : LState)
    (He : ∀ ms, msgToolCalls (engine ms) ≠ [])
    (hm : resolveMaxToolCalls configuredMax = MaxTC.fin n)
    (hctx : initial.ctx = {})
    (Hbud : ∀ e ∈ (runLoop engine toolResult now configuredMax initial).entries,
      budgetExceeded e = false) :
    (runLoop engine toolResult now configuredMax
      initial).final.ctx.finalizedDueToToolLimit = true ∧
    toolLimitNotice ∈
      (runLoop engine toolResult now configuredMax initial).final.messages ∧
    (∀ (e2 : List Msg → Msg) (t2 : ToolCall → String) (n2 : Nat)
        (cfg : Option MaxTC) (s : LState),
      (runLoop e2 t2 n2 cfg s).iters ≤ iterationLimit (resolveMaxToolCalls cfg)) ∧
    iterationLimit MaxTC.infinite = 100 ∧
    resolveMaxToolCalls none = MaxTC.fin 50 ∧
    (∀ k : Nat, iterationLimit (MaxTC.fin k) = max (k * 3 + 10) 40) := by
  have hrun : runLoop engine toolResult now configuredMax initial =
      runLoopAux engine toolResult now (MaxTC.fin n)
        (iterationLimit (MaxTC.fin n)) false initial := by
    simp [runLoop, resolverNode, hm, hctx]
  have hfuel : n - initial.toolCallCount + 2 ≤ iterationLimit (MaxTC.fin n) := by
    have h2 : iterationLimit (MaxTC.fin n) = max (n * 3 + 10) 40 := rfl
    rw [h2]
    have h1 : n - initial.toolCallCount ≤ n := Nat.sub_le _ _
    omega
  rw [hrun] at Hbud
  obtain ⟨q1, q2⟩ := runLoopAux_tool_limit engine toolResult now n He
    (iterationLimit (MaxTC.fin n)) initial
    (by rw [hctx]) (by rw [hctx]) (by rw [hctx]) (by rw [hctx])
    Hbud hfuel
  refine ⟨by rw [hrun]; exact q1, by rw [hrun]; exact q2, ?_, rfl, rfl, fun k => rfl⟩
  intro e2 t2 n2 cfg s
  show (runLoopAux e2 t2 n2 (resolveMaxToolCalls cfg)
      (iterationLimit (resolveMaxToolCalls cfg)) _ _).iters ≤
    iterationLimit (resolveMaxToolCalls cfg)
  exact runLoopAux_iters_le e2 t2 n2 _ _ _ _

set_option maxRecDepth 8000 in
/-- Witness for C2: a one-tool-call ceiling with the constant
tool-requesting engine. -/
theorem C2_tool_limit_witness :
    (∀ ms, msgToolCalls (loopEngine ms) ≠ []) ∧
    resolveMaxToolCalls (some (MaxTC.fin 1)) = MaxTC.fin 1 ∧
    loopInit.ctx = {} ∧
    (∀ e ∈ (runLoop loopEngine (fun tc => "ok") 0 (some (MaxTC.fin 1))
        loopInit).entries, budgetExceeded e = false) ∧
    (runLoop loopEngine (fun tc => "ok") 0 (some (MaxTC.fin 1))
      loopInit).final.ctx.finalizedDueToToolLimit = true ∧
    toolLimitNotice ∈ (runLoop loopEngine (fun tc => "ok") 0 (some (MaxTC.fin 1))
      loopInit).final.messages := by
  have he : ∀ ms, msgToolCalls (loopEngine ms) ≠ [] := fun ms => by
    show msgToolCalls
      { role := "assistant"
        tool_calls := some [{ id := some "c", fnName := some "t"
                              fnArgs := some (ArgVal.str "a") }] } ≠ []
    decide
  have h := C2_tool_limit loopEngine (fun tc => "ok") 0 (some (MaxTC.fin 1)) 1 loopInit
    he (by decide) (by decide) (by decide)
  exact ⟨he, by decide, by decide, by decide, h.1, h.2.1⟩


end AgentSdk
